import Mathlib

/-!
# A shallow embedding of the `rose` regular-expression engine

This file embeds, in Lean 4, the converged design of the `rose` regex
engine (character-class algebra, recursive-descent parser, byte-code
compiler and Pike-style virtual machine) and proves or refutes the frozen
claims about it.

Modelling conventions:

* Rust `char` (a Unicode scalar value) is modelled as `Nat` together with
  the predicate `isScalar`; `char::from_u32` is `fromU32`, which rejects
  surrogates and values above `0x10FFFF` exactly as the Rust function does.
* Rust panics (`fail!`, `unwrap`, `expect`, out-of-bounds indexing,
  assertion failures) are modelled by `Option.none` (or a dedicated
  `Except` error for the VM, which distinguishes failure modes).
* Imperative loops are modelled as tail-recursive functions on explicit
  state; unbounded recursion (the parser's mutual recursion and the VM's
  `follow`, which can genuinely diverge on epsilon cycles) takes a fuel
  parameter.  Fuel exhaustion is the image of non-termination.
* All definitions are executable, so concrete runs are settled by
  `decide` / `rfl`.
-/

namespace Rose

/-! ## Code points (Rust `char`)

A Rust `char` is a Unicode scalar value: an integer in
`[0, 0x10FFFF]` that is not a surrogate (`[0xD800, 0xDFFF]`). -/

/-- The largest code point, `char::MAX = '\u{10FFFF}'`. -/
def charMAX : Nat := 1114111

/-- `c` is a Unicode scalar value (a valid Rust `char`). -/
def isScalar (c : Nat) : Prop := c ≤ 1114111 ∧ ¬(55296 ≤ c ∧ c ≤ 57343)

instance (c : Nat) : Decidable (isScalar c) := by
  unfold isScalar
  infer_instance

/-- `std::char::from_u32`: `Some` iff the value is a Unicode scalar value
(surrogates and values above `char::MAX` are rejected). -/
def fromU32 (n : Nat) : Option Nat :=
  if isScalar n then some n else none

/-- `charclass::next_char`: `char::from_u32(c as u32 + 1).unwrap()`.
`none` models the `unwrap` panic (when `c + 1` is a surrogate or out of
range). -/
def next_char (c : Nat) : Option Nat := fromU32 (c + 1)

/-- `charclass::prev_char`: `char::from_u32(c as u32 - 1).unwrap()`.
`none` models the `unwrap` panic and the `u32` underflow at `c = 0`. -/
def prev_char (c : Nat) : Option Nat :=
  if c = 0 then none else fromU32 (c - 1)

/-! ## Character classes (`src/rose/charclass/mod.rs`)

A `Range` is a pair of code points; a character class is a list of
ranges.  The `CCOwned`/`CCStatic` distinction is storage only (the
`ranges()` accessor erases it), so a class is modelled directly as its
range list. -/

/-- A range of code points, `(lo, hi)`, inclusive on both ends. -/
abbrev CCRange := Nat × Nat

/-- Membership of a code point in a list of ranges, by linear scan:
`c` lies inside some range of the list. -/
def rmem (c : Nat) (rs : List CCRange) : Prop :=
  ∃ p ∈ rs, p.1 ≤ c ∧ c ≤ p.2

instance (c : Nat) (rs : List CCRange) : Decidable (rmem c rs) := by
  unfold rmem
  infer_instance

/-- The comparator of `CharClass::new`'s `sort_by`: lo ascending, and on
equal lo, hi descending.  It is a total order that is antisymmetric on
pairs, so every correct sort (in particular Rust's stable `sort_by` and
the insertion sort used here) produces the same list. -/
def rangeLE (a b : CCRange) : Prop :=
  a.1 < b.1 ∨ (a.1 = b.1 ∧ b.2 ≤ a.2)

instance : DecidableRel rangeLE := by
  unfold rangeLE DecidableRel
  infer_instance

instance : IsTotal CCRange rangeLE := by
  constructor
  intro a b
  unfold rangeLE
  omega

instance : IsTrans CCRange rangeLE := by
  constructor
  intro a b c hab hbc
  unfold rangeLE at *
  omega

/-- The sorting pass of `CharClass::new`. -/
def sortRanges (r : List CCRange) : List CCRange :=
  List.insertionSort rangeLE r

/-- The in-place coalescing loop of `CharClass::new`, written as explicit
state passing: `out` is the finalized prefix `r[0 .. cursor)`, `cur` is
`r[cursor]`, and `rest` is what the loop index `i` has not visited yet.
The arms mirror the source: stop early when `cur.hi == char::MAX`
(dropping the rest, which the final `truncate` discards); merge when
`rest`'s head starts at or before `next_char(cur.hi)`; otherwise advance
the cursor (`cursor += 1; r[cursor] = r[i]`).  `none` models the panic
inside `next_char`. -/
def coalesce (out : List CCRange) (cur : CCRange) (rest : List CCRange) :
    Option (List CCRange) :=
  match rest with
  | [] => some (out ++ [cur])
  | (lo, hi) :: rest' =>
    if cur.2 = charMAX then
      some (out ++ [cur])
    else
      match next_char cur.2 with
      | none => none
      | some nc =>
        if lo ≤ nc then
          coalesce out (min cur.1 lo, max cur.2 hi) rest'
        else
          coalesce (out ++ [cur]) (lo, hi) rest'

namespace CharClass

/-- `CharClass::new`: fail on any inverted range, sort, fail on an empty
input, then coalesce.  `none` models the `fail!` calls and the possible
panic inside `next_char`. -/
def new (r : List CCRange) : Option (List CCRange) :=
  if r.any (fun p => p.2 < p.1) then
    none
  else
    match sortRanges r with
    | [] => none
    | c :: rest => coalesce [] c rest

/-- `CharClass::from_char`. -/
def from_char (c : Nat) : Option (List CCRange) := new [(c, c)]

/-- `CharClass::from_range`. -/
def from_range (lo hi : Nat) : Option (List CCRange) := new [(lo, hi)]

/-- `CharClass::combine`: flatten all the classes' ranges and renormalize. -/
def combine (classes : List (List CCRange)) : Option (List CCRange) :=
  new classes.flatten

/-- `CharClass::to_char`: the sole code point iff the class is a single
singleton range. -/
def to_char (rs : List CCRange) : Option Nat :=
  match rs with
  | [(lo, hi)] => if lo = hi then some lo else none
  | _ => none

/-- The binary-search loop of `slice::bsearch` as used by
`CharClass::includes`, with the 2014-era libstd control flow: probe
`ix = base + lim/2`; on `Greater` (`c < lo`) halve `lim`; on `Less`
(`hi < c`) move `base` past `ix` and halve `lim - 1`; on `Equal` succeed.
The fuel argument only forces structural termination; `lim < fuel` always
holds at call sites. -/
def bsearchLoop (rs : List CCRange) (c : Nat) :
    Nat → Nat → Nat → Bool
  | 0, _, _ => false
  | fuel + 1, base, lim =>
    if lim = 0 then
      false
    else
      match rs.get? (base + lim / 2) with
      | none => false
      | some (lo, hi) =>
        if c < lo then
          bsearchLoop rs c fuel base (lim / 2)
        else if hi < c then
          bsearchLoop rs c fuel (base + lim / 2 + 1) ((lim - 1) / 2)
        else
          true

/-- `CharClass::includes`: binary search over the (normalized) ranges. -/
def includes (rs : List CCRange) (c : Nat) : Bool :=
  bsearchLoop rs c (rs.length + 1) 0 rs.length

/-- The loop of `CharClass::negate` over `ranges[1..]`: each earlier
range's `hi` (`last_hi`) and the next range's `lo` bound one complement
segment `(next_char(last_hi), prev_char(lo))`; after the loop the final
segment up to `char::MAX` is emitted unless `last_hi` already is
`char::MAX`.  `none` models the panics inside `next_char`/`prev_char`. -/
def negLoop (lastHi : Nat) (rs : List CCRange) (acc : List CCRange) :
    Option (List CCRange) :=
  match rs with
  | [] =>
    if lastHi = charMAX then
      some acc
    else
      match next_char lastHi with
      | none => none
      | some n => some (acc ++ [(n, charMAX)])
  | (lo, hi) :: rest =>
    match next_char lastHi, prev_char lo with
    | some n, some p => negLoop hi rest (acc ++ [(n, p)])
    | _, _ => none

/-- `CharClass::negate`: complement within `['\u{0}', char::MAX]`.
Reading `ranges[0]` of an empty class would panic, hence `none` on `[]`. -/
def negate (rs : List CCRange) : Option (List CCRange) :=
  match rs with
  | [] => none
  | (flo, fhi) :: rest =>
    if flo = 0 then
      negLoop fhi rest []
    else
      match prev_char flo with
      | none => none
      | some p => negLoop fhi rest [(0, p)]

end CharClass

/-! ### ASCII tables (`src/rose/charclass/ascii.rs`) -/

/-- `ascii::digit`. -/
def asciiDigit : List CCRange := [(48, 57)]

/-- `ascii::punct`. -/
def asciiPunct : List CCRange := [(33, 47), (58, 64), (91, 96), (123, 126)]

/-- `ascii::space`. -/
def asciiSpace : List CCRange := [(9, 13), (32, 32)]

/-- `ascii::word`. -/
def asciiWord : List CCRange := [(48, 57), (65, 90), (95, 95), (97, 122)]

/-! ### Character-class lemmas -/

/-- Adjacent normalized ranges are separated by at least one code point. -/
def gapOK (a b : CCRange) : Prop := a.2 + 1 < b.1

/-- Ranges ordered by their lower bound. -/
def loLE (a b : CCRange) : Prop := a.1 ≤ b.1

theorem rmem_nil (c : Nat) : rmem c [] ↔ False := by
  simp [rmem]

theorem rmem_cons {c : Nat} {p : CCRange} {l : List CCRange} :
    rmem c (p :: l) ↔ (p.1 ≤ c ∧ c ≤ p.2) ∨ rmem c l := by
  simp [rmem]

theorem rmem_single {c : Nat} {p : CCRange} :
    rmem c [p] ↔ p.1 ≤ c ∧ c ≤ p.2 := by
  simp [rmem]

theorem rmem_append {c : Nat} {l₁ l₂ : List CCRange} :
    rmem c (l₁ ++ l₂) ↔ rmem c l₁ ∨ rmem c l₂ := by
  simp [rmem, or_and_right, exists_or]

theorem isScalar_le {c : Nat} (h : isScalar c) : c ≤ 1114111 := h.1

theorem next_char_eq {c : Nat} (h1 : isScalar c) (h2 : c ≠ 55295)
    (h3 : c ≠ charMAX) : next_char c = some (c + 1) := by
  have h : isScalar (c + 1) := by
    unfold isScalar charMAX at *
    omega
  simp [next_char, fromU32, h]

theorem isScalar_succ {c : Nat} (h1 : isScalar c) (h2 : c ≠ 55295)
    (h3 : c ≠ charMAX) : isScalar (c + 1) := by
  unfold isScalar charMAX at *
  omega

theorem prev_char_eq {c : Nat} (h1 : isScalar c) (h2 : c ≠ 57344)
    (h3 : c ≠ 0) : prev_char c = some (c - 1) := by
  have h : isScalar (c - 1) := by
    unfold isScalar at *
    omega
  simp [prev_char, fromU32, h, h3]

theorem isScalar_pred {c : Nat} (h1 : isScalar c) (h2 : c ≠ 57344) :
    isScalar (c - 1) := by
  unfold isScalar at *
  omega

theorem isScalar_min {a b : Nat} (ha : isScalar a) (hb : isScalar b) :
    isScalar (min a b) := by
  rcases le_total a b with h | h
  · rwa [min_eq_left h]
  · rwa [min_eq_right h]

theorem isScalar_max {a b : Nat} (ha : isScalar a) (hb : isScalar b) :
    isScalar (max a b) := by
  rcases le_total a b with h | h
  · rwa [max_eq_right h]
  · rwa [max_eq_left h]

/-- Main property of the coalescing loop: provided no range's upper bound
sits just below the surrogate gap (which would make `next_char` panic),
the loop succeeds and produces a non-empty, valid, gap-sorted list that
covers exactly the union of `out`, `cur` and `rest`. -/
theorem coalesce_spec :
    ∀ (rest out : List CCRange) (cur : CCRange),
      (∀ p ∈ out, p.1 ≤ p.2 ∧ isScalar p.1 ∧ isScalar p.2) →
      (∀ p ∈ out, p.2 + 1 < cur.1) →
      (∀ p ∈ out, ∀ q ∈ rest, p.2 + 1 < q.1) →
      out.Pairwise gapOK →
      cur.1 ≤ cur.2 → isScalar cur.1 → isScalar cur.2 → cur.2 ≠ 55295 →
      (∀ q ∈ rest, q.1 ≤ q.2 ∧ isScalar q.1 ∧ isScalar q.2 ∧ q.2 ≠ 55295) →
      (∀ q ∈ rest, cur.1 ≤ q.1) →
      rest.Pairwise loLE →
      ∃ res, coalesce out cur rest = some res ∧
        res ≠ [] ∧
        (∀ p ∈ res, p.1 ≤ p.2 ∧ isScalar p.1 ∧ isScalar p.2) ∧
        res.Pairwise gapOK ∧
        (∀ c, rmem c res ↔ (rmem c out ∨ (cur.1 ≤ c ∧ c ≤ cur.2) ∨ rmem c rest)) := by
  intro rest
  induction rest with
  | nil =>
    intro out cur hov hol hox hop hc1 hc2 hc3 hc4 hr hs hrp
    refine ⟨out ++ [cur], rfl, by simp, ?_, ?_, ?_⟩
    · intro p hp
      rcases List.mem_append.mp hp with h | h
      · exact hov p h
      · simp only [List.mem_singleton] at h
        subst h
        exact ⟨hc1, hc2, hc3⟩
    · refine List.pairwise_append.mpr ⟨hop, by simp [gapOK], ?_⟩
      intro p hp q hq
      simp only [List.mem_singleton] at hq
      subst hq
      exact hol p hp
    · intro c
      rw [rmem_append, rmem_single, rmem_nil]
      tauto
  | cons hd tl ih =>
    intro out cur hov hol hox hop hc1 hc2 hc3 hc4 hr hs hrp
    obtain ⟨lo, hi⟩ := hd
    simp only [coalesce]
    by_cases hmax : cur.2 = charMAX
    · rw [if_pos hmax]
      have habs : ∀ c, rmem c ((lo, hi) :: tl) → cur.1 ≤ c ∧ c ≤ cur.2 := by
        intro c hm
        rcases rmem_cons.mp hm with ⟨h1, h2⟩ | ⟨q, hq, h1, h2⟩
        · have h3 := hs (lo, hi) (by simp)
          have h5 := isScalar_le (hr (lo, hi) (by simp)).2.2.1
          unfold charMAX at hmax
          simp only at h3 h1 h2 h5 ⊢
          omega
        · have h3 := hs q (List.mem_cons_of_mem _ hq)
          have h5 := isScalar_le (hr q (List.mem_cons_of_mem _ hq)).2.2.1
          unfold charMAX at hmax
          omega
      refine ⟨out ++ [cur], rfl, by simp, ?_, ?_, ?_⟩
      · intro p hp
        rcases List.mem_append.mp hp with h | h
        · exact hov p h
        · simp only [List.mem_singleton] at h
          subst h
          exact ⟨hc1, hc2, hc3⟩
      · refine List.pairwise_append.mpr ⟨hop, by simp [gapOK], ?_⟩
        intro p hp q hq
        simp only [List.mem_singleton] at hq
        subst hq
        exact hol p hp
      · intro c
        rw [rmem_append, rmem_single]
        constructor
        · rintro (h | h)
          · exact Or.inl h
          · exact Or.inr (Or.inl h)
        · rintro (h | h | h)
          · exact Or.inl h
          · exact Or.inr h
          · exact Or.inr (habs c h)
    · rw [if_neg hmax]
      have hnc : next_char cur.2 = some (cur.2 + 1) := next_char_eq hc3 hc4 hmax
      simp only [hnc]
      have hlo1 : cur.1 ≤ lo := hs (lo, hi) (by simp)
      have hhd := hr (lo, hi) (by simp)
      simp only at hhd
      by_cases hle : lo ≤ cur.2 + 1
      · rw [if_pos hle]
        have hmin : min cur.1 lo = cur.1 := min_eq_left hlo1
        obtain ⟨res, heq, hne, hv, hp, hm⟩ :=
          ih out (min cur.1 lo, max cur.2 hi) hov
            (by
              intro p hp
              have := hol p hp
              simp only [hmin]
              omega)
            (fun p hp q hq => hox p hp q (List.mem_cons_of_mem _ hq))
            hop
            (by simp only; omega)
            (by simpa [hmin] using hc2)
            (isScalar_max hc3 hhd.2.2.1)
            (by
              have := hhd.2.2.2
              simp only
              omega)
            (fun q hq => hr q (List.mem_cons_of_mem _ hq))
            (by
              intro q hq
              have h1 := List.rel_of_pairwise_cons hrp hq
              simp only [hmin, loLE] at h1 ⊢
              omega)
            (List.Pairwise.of_cons hrp)
        refine ⟨res, heq, hne, hv, hp, ?_⟩
        intro c
        rw [hm c, rmem_cons]
        simp only [hmin]
        constructor
        · rintro (h | h | h)
          · exact Or.inl h
          · rcases le_or_lt c cur.2 with hc | hc
            · exact Or.inr (Or.inl ⟨by omega, hc⟩)
            · refine Or.inr (Or.inr (Or.inl ⟨?_, ?_⟩)) <;> omega
          · exact Or.inr (Or.inr (Or.inr h))
        · rintro (h | h | h | h)
          · exact Or.inl h
          · exact Or.inr (Or.inl ⟨by omega, by omega⟩)
          · exact Or.inr (Or.inl ⟨by omega, by omega⟩)
          · exact Or.inr (Or.inr h)
      · rw [if_neg hle]
        obtain ⟨res, heq, hne, hv, hp, hm⟩ :=
          ih (out ++ [cur]) (lo, hi)
            (by
              intro p hp
              rcases List.mem_append.mp hp with h | h
              · exact hov p h
              · simp only [List.mem_singleton] at h
                subst h
                exact ⟨hc1, hc2, hc3⟩)
            (by
              intro p hp
              rcases List.mem_append.mp hp with h | h
              · exact hox p h (lo, hi) (by simp)
              · simp only [List.mem_singleton] at h
                subst h
                simp only
                omega)
            (by
              intro p hp q hq
              rcases List.mem_append.mp hp with h | h
              · exact hox p h q (List.mem_cons_of_mem _ hq)
              · simp only [List.mem_singleton] at h
                subst h
                have h1 := List.rel_of_pairwise_cons hrp hq
                simp only [loLE] at h1
                omega)
            (by
              refine List.pairwise_append.mpr ⟨hop, by simp [gapOK], ?_⟩
              intro p hp q hq
              simp only [List.mem_singleton] at hq
              subst hq
              exact hol p hp)
            hhd.1 hhd.2.1 hhd.2.2.1 hhd.2.2.2
            (fun q hq => hr q (List.mem_cons_of_mem _ hq))
            (by
              intro q hq
              exact List.rel_of_pairwise_cons hrp hq)
            (List.Pairwise.of_cons hrp)
        refine ⟨res, heq, hne, hv, hp, ?_⟩
        intro c
        rw [hm c, rmem_append, rmem_cons]
        simp only [rmem_nil, or_false, rmem_cons]
        tauto

theorem rangeLE_to_loLE {a b : CCRange} (h : rangeLE a b) : loLE a b := by
  unfold rangeLE at h
  unfold loLE
  omega

/-- `CharClass::new` succeeds and normalizes, for non-empty valid input
staying clear of the surrogate boundary. -/
theorem new_spec (r : List CCRange)
    (hsc : ∀ p ∈ r, isScalar p.1 ∧ isScalar p.2)
    (hd7 : ∀ p ∈ r, p.2 ≠ 55295)
    (hne : r ≠ [])
    (hval : ∀ p ∈ r, p.1 ≤ p.2) :
    ∃ res, CharClass.new r = some res ∧
      res ≠ [] ∧
      (∀ p ∈ res, p.1 ≤ p.2 ∧ isScalar p.1 ∧ isScalar p.2) ∧
      res.Pairwise gapOK ∧
      (∀ c, rmem c res ↔ rmem c r) := by
  have hany : r.any (fun p => decide (p.2 < p.1)) = false := by
    rw [List.any_eq_false]
    intro p hp
    simpa using Nat.not_lt.mpr (hval p hp)
  have hperm : (sortRanges r).Perm r := List.perm_insertionSort rangeLE r
  have hmem : ∀ p, p ∈ sortRanges r ↔ p ∈ r := fun p => hperm.mem_iff
  have hsorted : (sortRanges r).Pairwise loLE :=
    (List.sorted_insertionSort rangeLE r).imp rangeLE_to_loLE
  have hsne : sortRanges r ≠ [] := by
    intro h
    exact hne (List.Perm.eq_nil (h ▸ hperm).symm)
  unfold CharClass.new
  rw [if_neg (by simp [hany])]
  rcases hhd : sortRanges r with _ | ⟨c0, rest⟩
  · exact absurd hhd hsne
  · have hc0 : c0 ∈ r := (hmem c0).mp (by rw [hhd]; exact List.mem_cons_self c0 rest)
    have hrestm : ∀ q ∈ rest, q ∈ r := by
      intro q hq
      exact (hmem q).mp (by rw [hhd]; exact List.mem_cons_of_mem _ hq)
    have hpw : List.Pairwise loLE (c0 :: rest) := hhd ▸ hsorted
    obtain ⟨res, heq, hne', hv, hp, hm⟩ :=
      coalesce_spec rest [] c0
        (by simp)
        (by simp)
        (by simp)
        List.Pairwise.nil
        (hval c0 hc0)
        (hsc c0 hc0).1
        (hsc c0 hc0).2
        (hd7 c0 hc0)
        (fun q hq =>
          ⟨hval q (hrestm q hq), (hsc q (hrestm q hq)).1,
            (hsc q (hrestm q hq)).2, hd7 q (hrestm q hq)⟩)
        (fun q hq => List.rel_of_pairwise_cons hpw hq)
        (List.Pairwise.of_cons hpw)
    refine ⟨res, heq, hne', hv, hp, ?_⟩
    intro c
    rw [hm c]
    have : rmem c r ↔ rmem c (sortRanges r) := by
      unfold rmem
      constructor
      · rintro ⟨p, hp1, hp2⟩
        exact ⟨p, (hmem p).mpr hp1, hp2⟩
      · rintro ⟨p, hp1, hp2⟩
        exact ⟨p, (hmem p).mp hp1, hp2⟩
    rw [this, hhd, rmem_cons, rmem_nil]
    tauto

/-- `CharClass::new` returns `none` exactly on empty or inverted input,
provided no input range ends at `U+D7FF`. -/
theorem new_none_iff (r : List CCRange)
    (hsc : ∀ p ∈ r, isScalar p.1 ∧ isScalar p.2)
    (hd7 : ∀ p ∈ r, p.2 ≠ 55295) :
    (CharClass.new r = none ↔ r = [] ∨ ∃ p ∈ r, p.2 < p.1) := by
  constructor
  · intro h
    by_contra hcon
    push_neg at hcon
    obtain ⟨hne, hval⟩ := hcon
    obtain ⟨res, heq, _⟩ :=
      new_spec r hsc hd7 hne hval
    rw [h] at heq
    exact Option.noConfusion heq
  · rintro (h | ⟨p, hp, hlt⟩)
    · subst h
      rfl
    · unfold CharClass.new
      rw [if_pos]
      rw [List.any_eq_true]
      exact ⟨p, hp, by simpa using hlt⟩

theorem rmem_iff_getElem {c : Nat} {rs : List CCRange} :
    rmem c rs ↔ ∃ i, ∃ _ : i < rs.length, rs[i].1 ≤ c ∧ c ≤ rs[i].2 := by
  unfold rmem
  constructor
  · rintro ⟨p, hp, h⟩
    obtain ⟨i, hi, hieq⟩ := List.mem_iff_getElem.mp hp
    exact ⟨i, hi, by rw [hieq]; exact h⟩
  · rintro ⟨i, hi, h⟩
    exact ⟨rs[i], List.getElem_mem hi, h⟩

/-- Correctness of the binary-search loop over a valid, gap-sorted range
list: within a window that excludes `c` on both outer sides, the loop
finds `c` iff some range of the list contains it. -/
theorem bsearchLoop_iff (rs : List CCRange) (c : Nat)
    (hval : ∀ p ∈ rs, p.1 ≤ p.2)
    (hgap : rs.Pairwise gapOK) :
    ∀ fuel base lim, lim < fuel → base + lim ≤ rs.length →
      (∀ i, ∀ _ : i < rs.length, i < base → rs[i].2 < c) →
      (∀ i, ∀ _ : i < rs.length, base + lim ≤ i → c < rs[i].1) →
      (CharClass.bsearchLoop rs c fuel base lim = true ↔ rmem c rs) := by
  have hmono : ∀ i j, ∀ _ : i < rs.length, ∀ _ : j < rs.length,
      i < j → rs[i].2 + 1 < rs[j].1 := by
    intro i j hi hj hij
    exact List.pairwise_iff_getElem.mp hgap i j hi hj hij
  have hvali : ∀ i, ∀ _ : i < rs.length, rs[i].1 ≤ rs[i].2 :=
    fun i hi => hval rs[i] (List.getElem_mem hi)
  have hlo_mono : ∀ i j, ∀ _ : i < rs.length, ∀ _ : j < rs.length,
      i ≤ j → rs[i].1 ≤ rs[j].1 := by
    intro i j hi hj hij
    rcases Nat.eq_or_lt_of_le hij with h | h
    · subst h
      rfl
    · have := hmono i j hi hj h
      have := hvali i hi
      omega
  have hhi_mono : ∀ i j, ∀ _ : i < rs.length, ∀ _ : j < rs.length,
      i ≤ j → rs[i].2 ≤ rs[j].2 := by
    intro i j hi hj hij
    rcases Nat.eq_or_lt_of_le hij with h | h
    · subst h
      rfl
    · have := hmono i j hi hj h
      have := hvali j hj
      omega
  intro fuel
  induction fuel with
  | zero =>
    intro base lim hf
    omega
  | succ fuel ih =>
    intro base lim hf hbl hlow hhigh
    by_cases hlim : lim = 0
    · simp only [CharClass.bsearchLoop, if_pos hlim]
      constructor
      · intro h
        exact absurd h (by simp)
      · intro hm
        exfalso
        obtain ⟨i, hi, h1, h2⟩ := rmem_iff_getElem.mp hm
        rcases Nat.lt_or_ge i base with h | h
        · have := hlow i hi h
          omega
        · have := hhigh i hi (by omega)
          omega
    · have hix : base + lim / 2 < rs.length := by omega
      rcases hp : rs[base + lim / 2] with ⟨lo, hi⟩
      simp only [CharClass.bsearchLoop, if_neg hlim, List.get?_eq_getElem?,
        List.getElem?_eq_getElem hix, hp]
      by_cases h1 : c < lo
      · rw [if_pos h1]
        apply ih base (lim / 2) (by omega) (by omega) hlow
        intro i hi2 hge
        rcases Nat.lt_or_ge i (base + lim) with h | h
        · have h3 := hlo_mono (base + lim / 2) i hix hi2 (by omega)
          rw [hp] at h3
          omega
        · exact hhigh i hi2 h
      · rw [if_neg h1]
        by_cases h2 : hi < c
        · rw [if_pos h2]
          apply ih (base + lim / 2 + 1) ((lim - 1) / 2) (by omega) (by omega)
          · intro i hi2 hlt
            rcases Nat.lt_or_ge i base with h | h
            · exact hlow i hi2 h
            · have h3 := hhi_mono i (base + lim / 2) hi2 hix (by omega)
              rw [hp] at h3
              omega
          · intro i hi2 hge
            exact hhigh i hi2 (by omega)
        · rw [if_neg h2]
          simp only [true_iff]
          refine ⟨(lo, hi), ?_, by omega⟩
          rw [← hp]
          exact List.getElem_mem hix

/-- `CharClass::includes` agrees with linear membership on valid,
gap-sorted range lists. -/
theorem includes_iff (rs : List CCRange) (c : Nat)
    (hval : ∀ p ∈ rs, p.1 ≤ p.2)
    (hgap : rs.Pairwise gapOK) :
    (CharClass.includes rs c = true ↔ rmem c rs) := by
  unfold CharClass.includes
  apply bsearchLoop_iff rs c hval hgap (rs.length + 1) 0 rs.length
    (by omega) (by omega)
  · intro i hi h
    omega
  · intro i hi h
    omega

/-- C3 (amended): for every vector of char ranges none of which ends at
`U+D7FF` (the code point just below the surrogate gap, where `next_char`
would panic), `CharClass::new` fails exactly when the input is empty or
some range has `lo > hi`; and when it succeeds, the result is a
non-empty list of valid ranges, sorted by `lo` ascending, whose adjacent
ranges satisfy `hi + 1 < next.lo`, and which denotes the same set of
code points as the union of the inputs. -/
theorem c3_new_normalizes (r : List CCRange)
    (hsc : ∀ p ∈ r, isScalar p.1 ∧ isScalar p.2)
    (hd7 : ∀ p ∈ r, p.2 ≠ 55295) :
    (CharClass.new r = none ↔ r = [] ∨ ∃ p ∈ r, p.2 < p.1) ∧
    (∀ res, CharClass.new r = some res →
      res ≠ [] ∧
      (∀ p ∈ res, p.1 ≤ p.2) ∧
      res.Pairwise (fun a b => a.1 ≤ b.1) ∧
      res.Pairwise (fun a b => a.2 + 1 < b.1) ∧
      (∀ c, rmem c res ↔ rmem c r)) := by
  refine ⟨new_none_iff r hsc hd7, ?_⟩
  intro res hres
  have hnn : ¬(r = [] ∨ ∃ p ∈ r, p.2 < p.1) := by
    intro h
    rw [← new_none_iff r hsc hd7] at h
    rw [hres] at h
    exact Option.noConfusion h
  push_neg at hnn
  obtain ⟨res', heq', hne', hv', hp', hm'⟩ :=
    new_spec r hsc hd7 hnn.1 hnn.2
  rw [hres] at heq'
  obtain rfl : res' = res := Option.some.injEq .. ▸ heq'.symm
  refine ⟨hne', fun p hp => (hv' p hp).1, ?_, hp', hm'⟩
  exact hp'.imp_of_mem (fun {a b} ha hb hab => by
    have := (hv' a ha).1
    unfold gapOK at hab
    omega)

/-- Witness for C3: the `class_sorted` test case
`new([('y','z'),('a','b')])`, with all hypotheses discharged concretely. -/
theorem c3_new_normalizes_witness :
    ((([(121, 122), (97, 98)] : List CCRange) ≠ [] ∧
      CharClass.new [(121, 122), (97, 98)] = some [(97, 98), (121, 122)]) ∧
     ([(97, 98), (121, 122)] : List CCRange).Pairwise (fun a b => a.2 + 1 < b.1)) ∧
    (∀ c, rmem c [(97, 98), (121, 122)] ↔ rmem c [(121, 122), (97, 98)]) :=
  ⟨⟨⟨by decide, by decide⟩, by decide⟩,
    ((c3_new_normalizes [(121, 122), (97, 98)] (by decide) (by decide)).2
      [(97, 98), (121, 122)] (by decide)).2.2.2.2⟩

/-- Counterexample to C3 as stated: the input
`[(U+D7FF, U+D7FF), (U+E000, U+E000)]` is non-empty and each range has
`lo ≤ hi` (both endpoints are Unicode scalar values), yet
`CharClass::new` fails — coalescing evaluates
`next_char(U+D7FF) = char::from_u32(0xD800).unwrap()`, which panics on
the surrogate. -/
theorem c3_new_counterexample :
    CharClass.new [(55295, 55295), (57344, 57344)] = none ∧
    ([(55295, 55295), (57344, 57344)] : List CCRange) ≠ [] ∧
    (55295 ≤ 55295 ∧ 57344 ≤ 57344) ∧
    (isScalar 55295 ∧ isScalar 57344) := by
  refine ⟨by decide, by decide, by decide, by decide⟩

/-- Behaviour of the `negate` loop over the tail of a normalized class:
it emits the complement segments strictly above `lastHi`, provided no
range touches the surrogate boundary from either side. -/
theorem negLoop_spec :
    ∀ (rs : List CCRange) (lastHi : Nat) (acc : List CCRange),
      isScalar lastHi → lastHi ≠ 55295 →
      (∀ q ∈ rs, q.1 ≤ q.2 ∧ isScalar q.1 ∧ isScalar q.2 ∧
        q.2 ≠ 55295 ∧ q.1 ≠ 57344) →
      (∀ q ∈ rs, lastHi + 1 < q.1) →
      rs.Pairwise gapOK →
      ∃ ex, CharClass.negLoop lastHi rs acc = some (acc ++ ex) ∧
        (∀ q ∈ ex, q.1 ≤ q.2 ∧ isScalar q.1 ∧ isScalar q.2 ∧ lastHi < q.1) ∧
        ex.Pairwise gapOK ∧
        (ex = [] ↔ (rs = [] ∧ lastHi = charMAX)) ∧
        (∀ c, c ≤ charMAX → (rmem c ex ↔ (lastHi < c ∧ ¬ rmem c rs))) := by
  intro rs
  induction rs with
  | nil =>
    intro lastHi acc hsc hd7 _ _ _
    by_cases hmax : lastHi = charMAX
    · refine ⟨[], by simp [CharClass.negLoop, hmax], by simp, by simp, by simp [hmax], ?_⟩
      intro c hc
      rw [rmem_nil]
      unfold charMAX at *
      constructor
      · intro h
        exact h.elim
      · rintro ⟨h, _⟩
        omega
    · have hnc : next_char lastHi = some (lastHi + 1) := next_char_eq hsc hd7 hmax
      have hM : isScalar charMAX := by decide
      refine ⟨[(lastHi + 1, charMAX)],
        by simp only [CharClass.negLoop, hnc]; rw [if_neg hmax], ?_, ?_, by simp [hmax], ?_⟩
      · intro q hq
        simp only [List.mem_singleton] at hq
        subst hq
        have h1 := isScalar_succ hsc hd7 hmax
        have h2 := isScalar_le hsc
        refine ⟨?_, h1, hM, by omega⟩
        unfold charMAX at *
        omega
      · simp [gapOK]
      · intro c hc
        rw [rmem_single, rmem_nil]
        simp only [not_false_iff, and_true]
        omega
  | cons hd tl ih =>
    intro lastHi acc hsc hd7 hr hgt hpw
    obtain ⟨lo, hi⟩ := hd
    have hhd := hr (lo, hi) (by simp)
    simp only at hhd
    have hgt0 := hgt (lo, hi) (by simp)
    simp only at hgt0
    have hmax : lastHi ≠ charMAX := by
      have := isScalar_le hhd.2.2.1
      unfold charMAX
      omega
    have hnc : next_char lastHi = some (lastHi + 1) := next_char_eq hsc hd7 hmax
    have hpc : prev_char lo = some (lo - 1) :=
      prev_char_eq hhd.2.1 hhd.2.2.2.2 (by omega)
    obtain ⟨ex, heq, hq, hpx, hemp, hm⟩ :=
      ih hi (acc ++ [(lastHi + 1, lo - 1)]) hhd.2.2.1 hhd.2.2.2.1
        (fun q hq => hr q (List.mem_cons_of_mem _ hq))
        (fun q hq => List.rel_of_pairwise_cons hpw hq)
        (List.Pairwise.of_cons hpw)
    refine ⟨(lastHi + 1, lo - 1) :: ex, ?_, ?_, ?_, by simp, ?_⟩
    · simp only [CharClass.negLoop, hnc, hpc]
      rw [heq, List.append_assoc]
      rfl
    · intro q hqm
      rcases List.mem_cons.mp hqm with h | h
      · subst h
        refine ⟨by omega, isScalar_succ hsc hd7 hmax, isScalar_pred hhd.2.1 hhd.2.2.2.2, by omega⟩
      · have h1 := hq q h
        refine ⟨h1.1, h1.2.1, h1.2.2.1, ?_⟩
        have := h1.2.2.2
        omega
    · refine List.pairwise_cons.mpr ⟨?_, hpx⟩
      intro q hqm
      have h1 := hq q hqm
      unfold gapOK
      simp only
      omega
    · intro c hc
      rw [rmem_cons, hm c hc, rmem_cons]
      have hrest : rmem c tl → hi + 1 < c := by
        rintro ⟨q, hqm, h1, h2⟩
        have h3 := List.rel_of_pairwise_cons hpw hqm
        unfold gapOK at h3
        omega
      constructor
      · rintro (⟨h1, h2⟩ | ⟨h1, h2⟩)
        · refine ⟨by omega, ?_⟩
          rintro (⟨h3, h4⟩ | h3)
          · simp only at h3 h4
            omega
          · have := hrest h3
            omega
        · refine ⟨by omega, ?_⟩
          rintro (⟨h3, h4⟩ | h3)
          · simp only at h3 h4
            omega
          · exact h2 h3
      · rintro ⟨h1, h2⟩
        by_cases hclo : c < lo
        · left
          constructor <;> omega
        · right
          constructor
          · rcases Nat.lt_or_ge hi c with h | h
            · exact h
            · exfalso
              exact h2 (Or.inl ⟨by omega, by omega⟩)
          · intro h3
            exact h2 (Or.inr h3)

/-- C4 (amended): for every character class satisfying the normalized-
class invariant whose ranges avoid the two surrogate boundary points
(no range ends at `U+D7FF` and none starts at `U+E000`, where
`next_char`/`prev_char` would panic), `negate` succeeds, membership in
the negation is the complement of membership in the class at every
Unicode scalar value, and the negation's range list is empty exactly when
the class covers every code point from `'\u{0}'` to `char::MAX`. -/
theorem c4_negate_complements (cc : List CCRange)
    (hne : cc ≠ [])
    (hval : ∀ p ∈ cc, p.1 ≤ p.2)
    (hgap : cc.Pairwise (fun a b => a.2 + 1 < b.1))
    (hsc : ∀ p ∈ cc, isScalar p.1 ∧ isScalar p.2)
    (hbnd : ∀ p ∈ cc, p.2 ≠ 55295 ∧ p.1 ≠ 57344) :
    (CharClass.negate cc).isSome = true ∧
    (∀ ncc, CharClass.negate cc = some ncc →
      (∀ c, isScalar c → CharClass.includes ncc c = !CharClass.includes cc c) ∧
      (ncc = [] ↔ ∀ c, c ≤ charMAX → CharClass.includes cc c = true)) := by
  rcases cc with _ | ⟨⟨flo, fhi⟩, rest⟩
  · exact absurd rfl hne
  have hgap' : List.Pairwise gapOK ((flo, fhi) :: rest) := hgap
  have hh1 : flo ≤ fhi := hval (flo, fhi) (by simp)
  have hh2 := hsc (flo, fhi) (by simp)
  have hh3 := hbnd (flo, fhi) (by simp)
  simp only at hh1 hh2 hh3
  obtain ⟨ex, heq, hexq, hexp, hexe, hexm⟩ :=
    negLoop_spec rest fhi
      (if flo = 0 then [] else [(0, flo - 1)])
      hh2.2 hh3.1
      (fun q hq =>
        ⟨hval q (List.mem_cons_of_mem _ hq), (hsc q (List.mem_cons_of_mem _ hq)).1,
          (hsc q (List.mem_cons_of_mem _ hq)).2, (hbnd q (List.mem_cons_of_mem _ hq)).1,
          (hbnd q (List.mem_cons_of_mem _ hq)).2⟩)
      (fun q hq => List.rel_of_pairwise_cons hgap' hq)
      (List.Pairwise.of_cons hgap')
  have hrest_lo : ∀ q ∈ rest, fhi + 1 < q.1 :=
    fun q hq => List.rel_of_pairwise_cons hgap' hq
  have hrest_abs : ∀ c, c < flo → ¬ rmem c rest := by
    rintro c hlt ⟨q, hq, h1, h2⟩
    have := hrest_lo q hq
    omega
  -- The computed negation and its basic shape.
  have hmain : ∃ ncc, CharClass.negate ((flo, fhi) :: rest) = some ncc ∧
      ncc = (if flo = 0 then [] else [(0, flo - 1)]) ++ ex := by
    by_cases h0 : flo = 0
    · subst h0
      refine ⟨ex, ?_, by simp⟩
      simp only [CharClass.negate, if_pos rfl]
      simpa using heq
    · have hpc : prev_char flo = some (flo - 1) := prev_char_eq hh2.1 hh3.2 h0
      refine ⟨[(0, flo - 1)] ++ ex, ?_, by simp [h0]⟩
      simp only [CharClass.negate, if_neg h0, hpc]
      simpa [h0] using heq
  obtain ⟨ncc, hncc, hshape⟩ := hmain
  -- invariant properties of the negation
  have hnval : ∀ q ∈ ncc, q.1 ≤ q.2 := by
    intro q hq
    rw [hshape] at hq
    rcases List.mem_append.mp hq with h | h
    · by_cases h0 : flo = 0
      · rw [if_pos h0] at h
        simp at h
      · rw [if_neg h0] at h
        simp only [List.mem_singleton] at h
        subst h
        simp only
        omega
    · exact (hexq q h).1
  have hnsc : ∀ q ∈ ncc, isScalar q.1 ∧ isScalar q.2 := by
    intro q hq
    rw [hshape] at hq
    rcases List.mem_append.mp hq with h | h
    · by_cases h0 : flo = 0
      · rw [if_pos h0] at h
        simp at h
      · rw [if_neg h0] at h
        simp only [List.mem_singleton] at h
        subst h
        have h0sc : isScalar 0 := by decide
        exact ⟨h0sc, isScalar_pred hh2.1 hh3.2⟩
    · exact ⟨(hexq q h).2.1, (hexq q h).2.2.1⟩
  have hngap : ncc.Pairwise gapOK := by
    rw [hshape]
    refine List.pairwise_append.mpr ⟨?_, hexp, ?_⟩
    · by_cases h0 : flo = 0
      · rw [if_pos h0]
        exact List.Pairwise.nil
      · rw [if_neg h0]
        simp
    · intro p hp q hq
      by_cases h0 : flo = 0
      · rw [if_pos h0] at hp
        simp at hp
      · rw [if_neg h0] at hp
        simp only [List.mem_singleton] at hp
        subst hp
        have := (hexq q hq).2.2.2
        unfold gapOK
        simp only
        omega
  -- set-level complement
  have hSem : ∀ c, c ≤ charMAX → (rmem c ncc ↔ ¬ rmem c ((flo, fhi) :: rest)) := by
    intro c hc
    rw [hshape, rmem_append, hexm c hc, rmem_cons]
    by_cases h0 : flo = 0
    · rw [if_pos h0]
      subst h0
      rw [rmem_nil]
      constructor
      · rintro (h | ⟨h1, h2⟩)
        · exact h.elim
        · rintro (⟨h3, h4⟩ | h3)
          · omega
          · exact h2 h3
      · intro h
        push_neg at h
        obtain ⟨h1, h2⟩ := h
        right
        exact ⟨by simpa using h1, h2⟩
    · rw [if_neg h0, rmem_single]
      constructor
      · rintro (⟨h1, h2⟩ | ⟨h1, h2⟩)
        · rintro (⟨h3, h4⟩ | h3)
          · simp only at h2 h3
            omega
          · exact hrest_abs c (by omega) h3
        · rintro (⟨h3, h4⟩ | h3)
          · omega
          · exact h2 h3
      · intro h
        push_neg at h
        obtain ⟨h1, h2⟩ := h
        by_cases hclo : c < flo
        · left
          simp only
          omega
        · right
          refine ⟨?_, h2⟩
          have := h1 (by omega)
          omega
  refine ⟨by rw [hncc]; rfl, ?_⟩
  intro ncc' hncc'
  obtain rfl : ncc = ncc' := by
    rw [hncc] at hncc'
    exact Option.some.injEq .. ▸ hncc'
  have hccval : ∀ p ∈ (flo, fhi) :: rest, p.1 ≤ p.2 := hval
  constructor
  · intro c hcs
    have hc : c ≤ charMAX := by
      have := isScalar_le hcs
      unfold charMAX
      omega
    have h1 := includes_iff ((flo, fhi) :: rest) c hccval hgap'
    have h2 := includes_iff ncc c hnval hngap
    by_cases hr : rmem c ((flo, fhi) :: rest)
    · rw [h1.mpr hr]
      have : CharClass.includes ncc c = false := by
        rcases Bool.eq_false_or_eq_true (CharClass.includes ncc c) with h | h
        · exact absurd hr ((hSem c hc).mp (h2.mp h))
        · exact h
      rw [this]
      rfl
    · have hf : CharClass.includes ((flo, fhi) :: rest) c = false := by
        rcases Bool.eq_false_or_eq_true (CharClass.includes ((flo, fhi) :: rest) c) with h | h
        · exact absurd (h1.mp h) hr
        · exact h
      rw [hf, h2.mpr ((hSem c hc).mpr hr)]
      rfl
  · constructor
    · intro hn c hc
      have h1 := includes_iff ((flo, fhi) :: rest) c hccval hgap'
      refine h1.mpr ?_
      by_contra hr
      have := (hSem c hc).mpr hr
      rw [hn] at this
      exact (rmem_nil c).mp this
    · intro hall
      rcases hq : ncc with _ | ⟨q, ncc''⟩
      · rfl
      · exfalso
        have hqm : q ∈ ncc := by
          rw [hq]
          exact List.mem_cons_self q ncc''
        have hc : q.1 ≤ charMAX := by
          have := isScalar_le (hnsc q hqm).1
          unfold charMAX
          omega
        have hrm : rmem q.1 ncc := ⟨q, hqm, le_refl _, hnval q hqm⟩
        have hnotcc := (hSem q.1 hc).mp hrm
        have h1 := includes_iff ((flo, fhi) :: rest) q.1 hccval hgap'
        exact hnotcc (h1.mp (hall q.1 hc))

/-- Witness for C4: the `negate_simple` test class
`[('T','s'), ('☻','♪')]`, whose negation is
`[('\0','S'), ('t','☺'), ('♫', MAX)]`; the complement equation is
instantiated at `c = 'a'`. -/
theorem c4_negate_complements_witness :
    (([(84, 115), (9787, 9834)] : List CCRange) ≠ [] ∧
     CharClass.negate [(84, 115), (9787, 9834)] =
       some [(0, 83), (116, 9786), (9835, 1114111)]) ∧
    CharClass.includes [(0, 83), (116, 9786), (9835, 1114111)] 97 =
      !CharClass.includes [(84, 115), (9787, 9834)] 97 :=
  ⟨⟨by decide, by decide⟩,
    ((c4_negate_complements [(84, 115), (9787, 9834)] (by decide) (by decide)
        (by decide) (by decide) (by decide)).2
      [(0, 83), (116, 9786), (9835, 1114111)] (by decide)).1 97 (by decide)⟩

/-- Counterexample to C4 as stated: `[(a, a), (U+E000, U+E000)]` is a
character class that `CharClass::new` itself constructs (it satisfies the
normalized invariant), yet `negate` panics on it rather than returning
the complement: the loop evaluates `prev_char(U+E000) =
char::from_u32(0xDFFF).unwrap()`, a surrogate. -/
theorem c4_negate_counterexample :
    CharClass.new [(97, 97), (57344, 57344)] = some [(97, 97), (57344, 57344)] ∧
    CharClass.negate [(97, 97), (57344, 57344)] = none := by
  exact ⟨by decide, by decide⟩

/-! ## Parser (`src/parse.rs`)

Strings are sequences of code points (`List Nat`); `fail!` and `expect`
panics are `none`.  The mutual recursive descent takes a fuel argument
(decremented on every call) because the grammar recursion is not
structural on the input; `parse` supplies a fuel that is amply
sufficient for any input. -/

/-- `parse::Greedy`. -/
inductive Greedy where
  | NonGreedy
  | Greedy
  deriving DecidableEq, Repr

/-- The AST, `parse::Expr`.  The `u32` repetition bounds are `Nat`: the
`REPEAT_MAX` check keeps every computed bound at most `100000`, so no
`u32` overflow is reachable. -/
inductive Expr where
  | Empty
  | Range (lo hi : Nat)
  | Concatenate (es : List Expr)
  | Alternate (es : List Expr)
  | Repeat (inner : Expr) (lo : Nat) (hi : Option Nat) (g : Greedy)
  | Capture (inner : Expr)

/-- `parse::REPEAT_MAX`. -/
def REPEAT_MAX : Nat := 100000

/-- `parse::State`: the remaining input plus the one-character pushback
slot (`prev`). -/
structure PState where
  input : List Nat
  prev : Option (List Nat)
  deriving DecidableEq, Repr

/-- `State::advance`: records `prev` then consumes one code point. -/
def advance (s : PState) : Option Nat × PState :=
  match s.input with
  | [] => (none, { s with prev := some s.input })
  | c :: rest => (some c, { input := rest, prev := some s.input })

/-- `State::retreat`: restores the input from `prev`; `none` models the
`expect("nowhere to retreat")` panic. -/
def retreat (s : PState) : Option PState :=
  match s.prev with
  | none => none
  | some p => some { input := p, prev := none }

/-- The loop of `parse::p_number`: accumulate decimal digits, failing
(`none`) as soon as an intermediate value exceeds `REPEAT_MAX`; on the
first non-digit (or end of input) push it back and return the
accumulator.  Intermediate values stay at most `10 * 100000 + 9`, far
below `2^32`, so the `u32` arithmetic is exact.  The fuel only forces
structural termination; `pNumber` supplies more than the loop can use. -/
def pNumberLoop : Nat → Option Nat → PState → Option (Option Nat × PState)
  | 0, _, _ => none
  | fuel + 1, acc, s =>
    match advance s with
    | (some c, s₁) =>
      if 48 ≤ c ∧ c ≤ 57 then
        match acc with
        | some n =>
          if 10 * n + (c - 48) ≤ REPEAT_MAX then
            pNumberLoop fuel (some (10 * n + (c - 48))) s₁
          else
            none
        | none => pNumberLoop fuel (some (c - 48)) s₁
      else
        match retreat s₁ with
        | none => none
        | some s₂ => some (acc, s₂)
    | (none, s₁) =>
      match retreat s₁ with
      | none => none
      | some s₂ => some (acc, s₂)

/-- `parse::p_number`. -/
def pNumber (s : PState) : Option (Option Nat × PState) :=
  pNumberLoop (s.input.length + 1) none s

/-- `parse::check_repeat`. -/
def checkRepeat (mn : Nat) (mx : Option Nat) : Bool :=
  match mx with
  | some m => mn ≤ m
  | none => true

/-- `parse::p_repetition` (the text after the opening `{`). -/
def pRepetition (s : PState) : Option ((Nat × Option Nat) × PState) :=
  match pNumber s with
  | none => none
  | some (mn?, s₁) =>
    match advance s₁ with
    | (some c, s₂) =>
      if c = 44 then
        match pNumber s₂ with
        | none => none
        | some (mx?, s₃) =>
          match advance s₃ with
          | (some c2, s₄) =>
            if c2 = 125 then
              if checkRepeat (mn?.getD 0) mx? then
                some ((mn?.getD 0, mx?), s₄)
              else
                none
            else
              none
          | (none, _) => none
      else if c = 125 then
        match mn? with
        | some n => some ((n, some n), s₂)
        | none => none
      else
        none
    | (none, _) => none

/-- The `'?'` arm of `parse::p_concatenate`: pop the last expression;
a non-greedy repeat is a "multiple repeat" error, a greedy repeat flips
to non-greedy, anything else becomes `Repeat(e, 0, Some(1), Greedy)`.
Popping from an empty list is the `expect("nothing to repeat")` panic. -/
def qmark (items : List Expr) : Option (List Expr) :=
  match items.getLast? with
  | none => none
  | some e =>
    match e with
    | Expr.Repeat _ _ _ Greedy.NonGreedy => none
    | Expr.Repeat i mn mx Greedy.Greedy =>
      some (items.dropLast ++ [Expr.Repeat i mn mx Greedy.NonGreedy])
    | _ => some (items.dropLast ++ [Expr.Repeat e 0 (some 1) Greedy.Greedy])

/-- `parse::add_repeat`: wrapping any repeat in another repeat is a
"multiple repeat" error. -/
def addRepeat (items : List Expr) (mn : Nat) (mx : Option Nat) :
    Option (List Expr) :=
  match items.getLast? with
  | none => none
  | some e =>
    match e with
    | Expr.Repeat _ _ _ _ => none
    | _ => some (items.dropLast ++ [Expr.Repeat e mn mx Greedy.Greedy])

/-- `parse::push_ignore_empty`. -/
def pushIgnoreEmpty (items : List Expr) (e : Expr) : List Expr :=
  match e with
  | Expr.Empty => items
  | _ => items ++ [e]

/-- `parse::cc_to_expr`: one `Range` per class range, under an
`Alternate`. -/
def ccToExpr (cc : List CCRange) : Expr :=
  Expr.Alternate (cc.map (fun p => Expr.Range p.1 p.2))

/-- The `match items` at the end of `p_alternate`. -/
def altFinish (items : List Expr) : Expr :=
  match items with
  | [] => Expr.Empty
  | [e] => e
  | _ => Expr.Alternate items

/-- The `match items` at the end of `p_concatenate`. -/
def catFinish (items : List Expr) : Expr :=
  match items with
  | [] => Expr.Empty
  | [e] => e
  | _ => Expr.Concatenate items

/-- `char::to_digit(c, 16)`. -/
def toDigit16 (c : Nat) : Option Nat :=
  if 48 ≤ c ∧ c ≤ 57 then some (c - 48)
  else if 97 ≤ c ∧ c ≤ 102 then some (c - 87)
  else if 65 ≤ c ∧ c ≤ 70 then some (c - 55)
  else none

/-- The digit loop of `parse::p_hex_escape` (`n_digits` is 2, 4 or 8,
so the `u32` accumulator cannot overflow). -/
def pHexLoop (acc : Nat) : Nat → PState → Option (Nat × PState)
  | 0, s => some (acc, s)
  | n + 1, s =>
    match advance s with
    | (some c, s₁) =>
      match toDigit16 c with
      | some d => pHexLoop (16 * acc + d) n s₁
      | none => none
    | (none, _) => none

/-- `parse::p_hex_escape`: exactly `n_digits` hex digits, then
`char::from_u32(acc).expect("character out of range")`. -/
def pHexEscape (s : PState) (nDigits : Nat) : Option (List CCRange × PState) :=
  match pHexLoop 0 nDigits s with
  | none => none
  | some (acc, s₁) =>
    match fromU32 acc with
    | none => none
    | some c =>
      match CharClass.from_char c with
      | none => none
      | some cc => some (cc, s₁)

/-- Pair a character-class computation with the parser state,
propagating its panics. -/
def withState (r : Option (List CCRange)) (s : PState) :
    Option (List CCRange × PState) :=
  match r with
  | none => none
  | some cc => some (cc, s)

/-- `parse::p_escape` (the text after the backslash). -/
def pEscape (s : PState) : Option (List CCRange × PState) :=
  match advance s with
  | (none, _) => none
  | (some c, s₁) =>
    if c = 110 then withState (CharClass.from_char 10) s₁
    else if c = 114 then withState (CharClass.from_char 13) s₁
    else if c = 116 then withState (CharClass.from_char 9) s₁
    else if c = 100 then some (asciiDigit, s₁)
    else if c = 115 then some (asciiSpace, s₁)
    else if c = 119 then some (asciiWord, s₁)
    else if c = 68 then withState (CharClass.negate asciiDigit) s₁
    else if c = 83 then withState (CharClass.negate asciiSpace) s₁
    else if c = 87 then withState (CharClass.negate asciiWord) s₁
    else if c = 120 then pHexEscape s₁ 2
    else if c = 117 then pHexEscape s₁ 4
    else if c = 85 then pHexEscape s₁ 8
    else if CharClass.includes asciiPunct c then withState (CharClass.from_char c) s₁
    else none

/-- The loop of `parse::p_comment`: consume everything up to the next
`')'` (pushed back), yielding `Empty`. -/
def pCommentLoop : Nat → PState → Option (Expr × PState)
  | 0, _ => none
  | fuel + 1, s =>
    match advance s with
    | (some c, s₁) =>
      if c ≠ 41 then
        pCommentLoop fuel s₁
      else
        match retreat s₁ with
        | none => none
        | some s₂ => some (Expr.Empty, s₂)
    | (none, s₁) =>
      match retreat s₁ with
      | none => none
      | some s₂ => some (Expr.Empty, s₂)

/-- `parse::p_comment`. -/
def pComment (s : PState) : Option (Expr × PState) :=
  pCommentLoop (s.input.length + 1) s

mutual

/-- `parse::p_alternate`. -/
def pAlternate (fuel : Nat) (s : PState) : Option (Expr × PState) :=
  match fuel with
  | 0 => none
  | fuel + 1 => pAlternateLoop fuel [] s

/-- The loop of `p_alternate`: one `p_concatenate` per `|`-separated
branch; `)` is pushed back for the caller, any other leftover character
is a `fail!`. -/
def pAlternateLoop (fuel : Nat) (items : List Expr) (s : PState) :
    Option (Expr × PState) :=
  match fuel with
  | 0 => none
  | fuel + 1 =>
    match pConcatenate fuel s with
    | none => none
    | some (e, s₁) =>
      match advance s₁ with
      | (some c, s₂) =>
        if c = 41 then
          match retreat s₂ with
          | none => none
          | some s₃ => some (altFinish (items ++ [e]), s₃)
        else if c = 124 then
          pAlternateLoop fuel (items ++ [e]) s₂
        else
          none
      | (none, s₂) => some (altFinish (items ++ [e]), s₂)

/-- `parse::p_concatenate`. -/
def pConcatenate (fuel : Nat) (s : PState) : Option (Expr × PState) :=
  match fuel with
  | 0 => none
  | fuel + 1 => pConcatLoop fuel [] s

/-- The loop of `p_concatenate`, one arm per metacharacter. -/
def pConcatLoop (fuel : Nat) (items : List Expr) (s : PState) :
    Option (Expr × PState) :=
  match fuel with
  | 0 => none
  | fuel + 1 =>
    match advance s with
    | (none, s₁) => some (catFinish items, s₁)
    | (some c, s₁) =>
      if c = 124 ∨ c = 41 then
        match retreat s₁ with
        | none => none
        | some s₂ => some (catFinish items, s₂)
      else if c = 40 then
        match pGroup fuel s₁ with
        | none => none
        | some (e, s₂) => pConcatLoop fuel (pushIgnoreEmpty items e) s₂
      else if c = 46 then
        pConcatLoop fuel (items ++ [Expr.Range 0 charMAX]) s₁
      else if c = 92 then
        match pEscape s₁ with
        | none => none
        | some (cc, s₂) => pConcatLoop fuel (items ++ [ccToExpr cc]) s₂
      else if c = 91 then
        match pCharclass fuel s₁ with
        | none => none
        | some (cc, s₂) => pConcatLoop fuel (items ++ [ccToExpr cc]) s₂
      else if c = 63 then
        match qmark items with
        | none => none
        | some items' => pConcatLoop fuel items' s₁
      else if c = 43 then
        match addRepeat items 1 none with
        | none => none
        | some items' => pConcatLoop fuel items' s₁
      else if c = 42 then
        match addRepeat items 0 none with
        | none => none
        | some items' => pConcatLoop fuel items' s₁
      else if c = 123 then
        match pRepetition s₁ with
        | none => none
        | some ((mn, mx), s₂) =>
          match addRepeat items mn mx with
          | none => none
          | some items' => pConcatLoop fuel items' s₂
      else
        pConcatLoop fuel (items ++ [Expr.Range c c]) s₁

/-- `parse::p_group` (the text after the opening parenthesis): `?:` is a
plain group, `?#` a comment, any other `?x` is an "unknown extension"
error; everything else is a capturing group.  The closing parenthesis is
matched at the end. -/
def pGroup (fuel : Nat) (s : PState) : Option (Expr × PState) :=
  match fuel with
  | 0 => none
  | fuel + 1 =>
    let step1 := advance s
    let result? : Option (Expr × PState) :=
      match step1.1 with
      | some 63 =>
        match advance step1.2 with
        | (some c2, s₂) =>
          if c2 = 58 then pAlternate fuel s₂
          else if c2 = 35 then pComment s₂
          else none
        | (none, _) => none
      | _ =>
        match retreat step1.2 with
        | none => none
        | some s₁' =>
          match pAlternate fuel s₁' with
          | none => none
          | some (e, s₂) => some (Expr.Capture e, s₂)
    match result? with
    | none => none
    | some (e, s₂) =>
      match advance s₂ with
      | (some 41, s₃) => some (e, s₃)
      | _ => none

/-- `parse::p_charclass` (the text after the opening bracket). -/
def pCharclass (fuel : Nat) (s : PState) : Option (List CCRange × PState) :=
  match fuel with
  | 0 => none
  | fuel + 1 =>
    let step1 := advance s
    match step1.1 with
    | some 94 => pCharclassLoop fuel true [] step1.2
    | _ =>
      match retreat step1.2 with
      | none => none
      | some s₂ => pCharclassLoop fuel false [] s₂

/-- The token loop of `p_charclass`: `]` closes the class (combining and
optionally negating), `-` builds a range from the previous token when a
next token exists, anything else is a token. -/
def pCharclassLoop (fuel : Nat) (neg : Bool) (classes : List (List CCRange))
    (s : PState) : Option (List CCRange × PState) :=
  match fuel with
  | 0 => none
  | fuel + 1 =>
    match advance s with
    | (none, _) => none
    | (some c, s₁) =>
      if c = 93 then
        match CharClass.combine classes with
        | none => none
        | some cc =>
          if neg then
            match CharClass.negate cc with
            | none => none
            | some ncc => some (ncc, s₁)
          else
            some (cc, s₁)
      else if c = 45 then
        match pCharclassToken fuel s₁ with
        | none => none
        | some (some ccHi, s₂) =>
          match classes.getLast? with
          | some ccLo =>
            match CharClass.to_char ccLo, CharClass.to_char ccHi with
            | some lo, some hi =>
              match CharClass.from_range lo hi with
              | none => none
              | some cc => pCharclassLoop fuel neg (classes.dropLast ++ [cc]) s₂
            | _, _ => none
          | none => pCharclassLoop fuel neg (classes ++ [ccHi]) s₂
        | some (none, s₂) =>
          match CharClass.from_char 45 with
          | none => none
          | some cc => pCharclassLoop fuel neg (classes ++ [cc]) s₂
      else
        match retreat s₁ with
        | none => none
        | some s₂ =>
          match pCharclassToken fuel s₂ with
          | none => none
          | some (none, _) => none
          | some (some cc, s₃) => pCharclassLoop fuel neg (classes ++ [cc]) s₃

/-- `parse::p_charclass_token`: `none` in the result means "no token
here" (closing bracket or end of input). -/
def pCharclassToken (fuel : Nat) (s : PState) :
    Option (Option (List CCRange) × PState) :=
  match fuel with
  | 0 => none
  | fuel + 1 =>
    match advance s with
    | (none, s₁) => some (none, s₁)
    | (some c, s₁) =>
      if c = 93 then
        match retreat s₁ with
        | none => none
        | some s₂ => some (none, s₂)
      else if c = 91 then
        match pCharclass fuel s₁ with
        | none => none
        | some (cc, s₂) => some (some cc, s₂)
      else if c = 92 then
        match pEscape s₁ with
        | none => none
        | some (cc, s₂) => some (some cc, s₂)
      else
        match CharClass.from_char c with
        | none => none
        | some cc => some (some cc, s₁)

end

/-- A fuel bound amply sufficient for any parse of `l` (the descent
consumes at least one code point for every few fuel units). -/
def parseFuel (l : List Nat) : Nat := 8 * (l.length + 4)

/-- `parse::parse`: a full `p_alternate`, then leftover input (an
unmatched `)`) is an "unbalanced parenthesis" error. -/
def parse (l : List Nat) : Option Expr :=
  match pAlternate (parseFuel l) ⟨l, none⟩ with
  | none => none
  | some (e, s) => if s.input.length = 0 then some e else none

/-! ### Parser lemmas -/

/-- Decimal digit code points. -/
def allDigits (ds : List Nat) : Prop := ∀ d ∈ ds, 48 ≤ d ∧ d ≤ 57

instance (ds : List Nat) : Decidable (allDigits ds) := by
  unfold allDigits
  infer_instance

/-- The accumulator of `p_number` after reading the digits `ds` on top
of the value `a`. -/
def valAcc (a : Nat) (ds : List Nat) : Nat :=
  ds.foldl (fun x d => 10 * x + (d - 48)) a

/-- The numeric value of a digit string. -/
def digitsVal (ds : List Nat) : Nat := valAcc 0 ds

/-- The next code point (if any) is not a digit. -/
def nonDigitHead (l : List Nat) : Prop :=
  ∀ d, l.head? = some d → ¬(48 ≤ d ∧ d ≤ 57)

theorem valAcc_ge (ds : List Nat) : ∀ a, a ≤ valAcc a ds := by
  induction ds with
  | nil =>
    intro a
    exact le_refl a
  | cons d ds ih =>
    intro a
    have h1 : valAcc a (d :: ds) = valAcc (10 * a + (d - 48)) ds := rfl
    have h2 := ih (10 * a + (d - 48))
    omega

theorem valAcc_cons (a d : Nat) (ds : List Nat) :
    valAcc a (d :: ds) = valAcc (10 * a + (d - 48)) ds := rfl

/-- `p_number`'s loop on a digit string followed by a non-digit:
succeeds with the accumulated value iff it stays within `REPEAT_MAX`. -/
theorem pNumberLoop_digits :
    ∀ (ds : List Nat) (fuel a : Nat) (rest : List Nat) (prev : Option (List Nat)),
      allDigits ds → nonDigitHead rest → ds.length < fuel → a ≤ REPEAT_MAX →
      pNumberLoop fuel (some a) ⟨ds ++ rest, prev⟩ =
        if valAcc a ds ≤ REPEAT_MAX then
          some (some (valAcc a ds), ⟨rest, none⟩)
        else
          none := by
  intro ds
  induction ds with
  | nil =>
    intro fuel a rest prev _ hnd hf ha
    match fuel, hf with
    | fuel + 1, _ =>
      show pNumberLoop (fuel + 1) (some a) ⟨rest, prev⟩ = _
      rcases rest with _ | ⟨r, rest'⟩
      · simp [pNumberLoop, advance, retreat, valAcc, ha]
      · have hr : ¬(48 ≤ r ∧ r ≤ 57) := hnd r rfl
        simp [pNumberLoop, advance, retreat, hr, valAcc, ha]
  | cons d ds ih =>
    intro fuel a rest prev hdig hnd hf ha
    match fuel, hf with
    | fuel + 1, hf =>
      have hd : 48 ≤ d ∧ d ≤ 57 := hdig d (by simp)
      show pNumberLoop (fuel + 1) (some a) ⟨d :: (ds ++ rest), prev⟩ = _
      simp only [pNumberLoop, advance, if_pos hd]
      rw [valAcc_cons]
      by_cases hbig : 10 * a + (d - 48) ≤ REPEAT_MAX
      · rw [if_pos hbig]
        exact ih fuel (10 * a + (d - 48)) rest _ (fun x hx => hdig x (by simp [hx]))
          hnd (by simpa using hf) hbig
      · rw [if_neg hbig]
        have := valAcc_ge ds (10 * a + (d - 48))
        rw [if_neg (by omega)]

/-- `p_number` on input starting with a non-digit: no number, input
restored. -/
theorem pNumber_nondigit (l : List Nat) (prev : Option (List Nat))
    (h : nonDigitHead l) :
    pNumber ⟨l, prev⟩ = some (none, ⟨l, none⟩) := by
  unfold pNumber
  rcases l with _ | ⟨r, l'⟩
  · simp [pNumberLoop, advance, retreat]
  · have hr : ¬(48 ≤ r ∧ r ≤ 57) := h r rfl
    simp [pNumberLoop, advance, retreat, if_neg hr]

/-- One step of `p_number`'s loop on a leading digit with no
accumulator yet: the first digit is accepted without a bound check. -/
theorem pNumberLoop_step_digit (fuel d : Nat) (t : List Nat)
    (prev : Option (List Nat)) (hd : 48 ≤ d ∧ d ≤ 57) :
    pNumberLoop (fuel + 1) none ⟨d :: t, prev⟩ =
      pNumberLoop fuel (some (d - 48)) ⟨t, some (d :: t)⟩ := by
  simp only [pNumberLoop, advance, if_pos hd]

/-- `p_number` on a non-empty digit string followed by a non-digit. -/
theorem pNumber_digits (d : Nat) (ds rest : List Nat) (prev : Option (List Nat))
    (hdig : allDigits (d :: ds)) (hnd : nonDigitHead rest) :
    pNumber ⟨(d :: ds) ++ rest, prev⟩ =
      if digitsVal (d :: ds) ≤ REPEAT_MAX then
        some (some (digitsVal (d :: ds)), ⟨rest, none⟩)
      else
        none := by
  have hd : 48 ≤ d ∧ d ≤ 57 := hdig d (by simp)
  unfold pNumber
  show pNumberLoop ((d :: (ds ++ rest)).length + 1) none ⟨d :: (ds ++ rest), prev⟩ = _
  rw [show (d :: (ds ++ rest) : List Nat).length = (ds ++ rest).length + 1 by simp]
  rw [pNumberLoop_step_digit ((ds ++ rest).length + 1) d (ds ++ rest) prev hd]
  rw [pNumberLoop_digits ds ((ds ++ rest).length + 1) (d - 48) rest
    (some (d :: (ds ++ rest)))
    (fun x hx => hdig x (by simp [hx])) hnd (by simp; omega)
    (by unfold REPEAT_MAX; omega)]
  have hv : valAcc (d - 48) ds = digitsVal (d :: ds) := by
    unfold digitsVal
    rw [valAcc_cons]
    norm_num
  rw [hv]

/-- The accumulator value `p_number`'s loop reports after reading the
digit string `ds` on top of `acc`. -/
def accAfter (acc : Option Nat) (ds : List Nat) : Option Nat :=
  match acc with
  | some a => some (valAcc a ds)
  | none =>
    match ds with
    | [] => none
    | _ => some (digitsVal ds)

theorem accAfter_none_cons (d : Nat) (ds : List Nat) :
    accAfter none (d :: ds) = some (valAcc (d - 48) ds) := by
  unfold accAfter digitsVal
  rw [valAcc_cons]
  norm_num

/-- Completeness of `p_number`'s loop: a successful run consumed some
digit string and reported its accumulated value. -/
theorem pNumberLoop_complete :
    ∀ (fuel : Nat) (acc : Option Nat) (s : PState) (v? : Option Nat) (s' : PState),
      pNumberLoop fuel acc s = some (v?, s') →
      ∃ ds, allDigits ds ∧ s.input = ds ++ s'.input ∧ v? = accAfter acc ds := by
  intro fuel
  induction fuel with
  | zero =>
    intro acc s v? s' h
    exact Option.noConfusion h
  | succ fuel ih =>
    intro acc s v? s' h
    rcases hs : s.input with _ | ⟨c, t⟩
    · have hthis : pNumberLoop (fuel + 1) acc s = some (acc, ⟨s.input, none⟩) := by
        simp only [pNumberLoop, advance, hs, retreat]
      rw [hthis] at h
      simp only [Option.some.injEq, Prod.mk.injEq] at h
      obtain ⟨h1, h2⟩ := h
      subst h1
      subst h2
      refine ⟨[], by simp [allDigits], by simp [hs], ?_⟩
      cases acc <;> simp [accAfter, valAcc]
    · by_cases hdig : 48 ≤ c ∧ c ≤ 57
      · rcases acc with _ | n
        · have hstep : pNumberLoop (fuel + 1) none s =
              pNumberLoop fuel (some (c - 48)) ⟨t, some (c :: t)⟩ := by
            simp only [pNumberLoop, advance, hs, if_pos hdig]
          rw [hstep] at h
          obtain ⟨ds, hd1, hd2, hd3⟩ := ih (some (c - 48)) ⟨t, some (c :: t)⟩ v? s' h
          refine ⟨c :: ds, ?_, ?_, ?_⟩
          · intro x hx
            rcases List.mem_cons.mp hx with h | h
            · subst h
              exact hdig
            · exact hd1 x h
          · rw [show t = ds ++ s'.input from hd2]
            rfl
          · rw [accAfter_none_cons, hd3]
            rfl
        · have hstep : pNumberLoop (fuel + 1) (some n) s =
              if 10 * n + (c - 48) ≤ REPEAT_MAX then
                pNumberLoop fuel (some (10 * n + (c - 48))) ⟨t, some (c :: t)⟩
              else none := by
            simp only [pNumberLoop, advance, hs, if_pos hdig]
          rw [hstep] at h
          by_cases hbig : 10 * n + (c - 48) ≤ REPEAT_MAX
          · rw [if_pos hbig] at h
            obtain ⟨ds, hd1, hd2, hd3⟩ :=
              ih (some (10 * n + (c - 48))) ⟨t, some (c :: t)⟩ v? s' h
            refine ⟨c :: ds, ?_, ?_, ?_⟩
            · intro x hx
              rcases List.mem_cons.mp hx with h | h
              · subst h
                exact hdig
              · exact hd1 x h
            · rw [show t = ds ++ s'.input from hd2]
              rfl
            · rw [hd3]
              rfl
          · rw [if_neg hbig] at h
            exact Option.noConfusion h
      · have hthis : pNumberLoop (fuel + 1) acc s = some (acc, ⟨s.input, none⟩) := by
          simp only [pNumberLoop, advance, hs, if_neg hdig, retreat]
        rw [hthis] at h
        simp only [Option.some.injEq, Prod.mk.injEq] at h
        obtain ⟨h1, h2⟩ := h
        subst h1
        subst h2
        refine ⟨[], by simp [allDigits], by simp [hs], ?_⟩
        cases acc <;> simp [accAfter, valAcc]

/-- Completeness of `p_number`. -/
theorem pNumber_complete (s : PState) (v? : Option Nat) (s' : PState)
    (h : pNumber s = some (v?, s')) :
    ∃ ds, allDigits ds ∧ s.input = ds ++ s'.input ∧ v? = accAfter none ds :=
  pNumberLoop_complete (s.input.length + 1) none s v? s' h

theorem nonDigitHead_brace (l : List Nat) : nonDigitHead (125 :: l) := by
  intro d hd
  simp only [List.head?_cons, Option.some.injEq] at hd
  omega

theorem nonDigitHead_comma (l : List Nat) : nonDigitHead (44 :: l) := by
  intro d hd
  simp only [List.head?_cons, Option.some.injEq] at hd
  omega

/-- C7: the five accepted forms of a counted repetition and its failure
conditions, for `p_repetition` applied to the text after the opening
brace.  Numerals are arbitrary digit strings `ds` with value
`digitsVal ds`; `REPEAT_MAX = 100000`. -/
theorem c7_repetition_bounds :
    (∀ ds rest prev, allDigits ds → ds ≠ [] → digitsVal ds ≤ REPEAT_MAX →
      pRepetition ⟨ds ++ 125 :: rest, prev⟩ =
        some ((digitsVal ds, some (digitsVal ds)), ⟨rest, some (125 :: rest)⟩)) ∧
    (∀ ds rest prev, allDigits ds → ds ≠ [] → digitsVal ds ≤ REPEAT_MAX →
      pRepetition ⟨ds ++ 44 :: 125 :: rest, prev⟩ =
        some ((digitsVal ds, none), ⟨rest, some (125 :: rest)⟩)) ∧
    (∀ ds rest prev, allDigits ds → ds ≠ [] → digitsVal ds ≤ REPEAT_MAX →
      pRepetition ⟨44 :: (ds ++ 125 :: rest), prev⟩ =
        some ((0, some (digitsVal ds)), ⟨rest, some (125 :: rest)⟩)) ∧
    (∀ ds₁ ds₂ rest prev, allDigits ds₁ → ds₁ ≠ [] → allDigits ds₂ → ds₂ ≠ [] →
      digitsVal ds₁ ≤ REPEAT_MAX → digitsVal ds₂ ≤ REPEAT_MAX →
      pRepetition ⟨ds₁ ++ 44 :: (ds₂ ++ 125 :: rest), prev⟩ =
        (if digitsVal ds₁ ≤ digitsVal ds₂ then
          some ((digitsVal ds₁, some (digitsVal ds₂)), ⟨rest, some (125 :: rest)⟩)
        else none)) ∧
    (∀ rest prev, pRepetition ⟨44 :: 125 :: rest, prev⟩ =
        some ((0, none), ⟨rest, some (125 :: rest)⟩)) ∧
    (∀ ds rest prev, allDigits ds → REPEAT_MAX < digitsVal ds →
      pRepetition ⟨ds ++ 125 :: rest, prev⟩ = none) ∧
    (∀ s r s', pRepetition s = some (r, s') →
      (∃ ds, allDigits ds ∧ ds ≠ [] ∧ s.input = ds ++ 125 :: s'.input ∧
        r = (digitsVal ds, some (digitsVal ds))) ∨
      (∃ ds₁ ds₂, allDigits ds₁ ∧ allDigits ds₂ ∧
        s.input = ds₁ ++ 44 :: (ds₂ ++ 125 :: s'.input) ∧
        r = ((if ds₁ = [] then 0 else digitsVal ds₁),
             (if ds₂ = [] then none else some (digitsVal ds₂))) ∧
        checkRepeat r.1 r.2 = true)) := by
  refine ⟨?_, ?_, ?_, ?_, ?_, ?_, ?_⟩
  · intro ds rest prev hdig hne hbig
    rcases ds with _ | ⟨d, ds'⟩
    · exact absurd rfl hne
    · unfold pRepetition
      rw [pNumber_digits d ds' (125 :: rest) prev hdig (nonDigitHead_brace rest),
        if_pos hbig]
      rfl
  · intro ds rest prev hdig hne hbig
    rcases ds with _ | ⟨d, ds'⟩
    · exact absurd rfl hne
    · unfold pRepetition
      rw [pNumber_digits d ds' (44 :: 125 :: rest) prev hdig (nonDigitHead_comma _),
        if_pos hbig]
      rfl
  · intro ds rest prev hdig hne hbig
    rcases ds with _ | ⟨d, ds'⟩
    · exact absurd rfl hne
    · unfold pRepetition
      rw [pNumber_nondigit (44 :: ((d :: ds') ++ 125 :: rest)) prev (nonDigitHead_comma _)]
      show (match pNumber ⟨(d :: ds') ++ 125 :: rest,
          some (44 :: ((d :: ds') ++ 125 :: rest))⟩ with
        | none => none
        | some (mx?, s₃) =>
          match advance s₃ with
          | (some c2, s₄) =>
            if c2 = 125 then
              if checkRepeat ((none : Option Nat).getD 0) mx? then
                some (((none : Option Nat).getD 0, mx?), s₄)
              else none
            else none
          | (none, _) => none) = _
      rw [pNumber_digits d ds' (125 :: rest) _ hdig (nonDigitHead_brace rest),
        if_pos hbig]
      simp [advance, checkRepeat]
  · intro ds₁ ds₂ rest prev hdig₁ hne₁ hdig₂ hne₂ hbig₁ hbig₂
    rcases ds₁ with _ | ⟨d₁, ds₁'⟩
    · exact absurd rfl hne₁
    rcases ds₂ with _ | ⟨d₂, ds₂'⟩
    · exact absurd rfl hne₂
    unfold pRepetition
    rw [pNumber_digits d₁ ds₁' (44 :: ((d₂ :: ds₂') ++ 125 :: rest)) prev hdig₁
      (nonDigitHead_comma _), if_pos hbig₁]
    show (match pNumber ⟨(d₂ :: ds₂') ++ 125 :: rest,
        some (44 :: ((d₂ :: ds₂') ++ 125 :: rest))⟩ with
      | none => none
      | some (mx?, s₃) =>
        match advance s₃ with
        | (some c2, s₄) =>
          if c2 = 125 then
            if checkRepeat ((some (digitsVal (d₁ :: ds₁')) : Option Nat).getD 0) mx? then
              some (((some (digitsVal (d₁ :: ds₁')) : Option Nat).getD 0, mx?), s₄)
            else none
          else none
        | (none, _) => none) = _
    rw [pNumber_digits d₂ ds₂' (125 :: rest) _ hdig₂ (nonDigitHead_brace rest),
      if_pos hbig₂]
    by_cases hle : digitsVal (d₁ :: ds₁') ≤ digitsVal (d₂ :: ds₂')
    · rw [if_pos hle]
      show (if checkRepeat (digitsVal (d₁ :: ds₁')) (some (digitsVal (d₂ :: ds₂'))) = true
        then _ else none) = _
      rw [if_pos (by simpa [checkRepeat] using hle)]
      rfl
    · rw [if_neg hle]
      show (if checkRepeat (digitsVal (d₁ :: ds₁')) (some (digitsVal (d₂ :: ds₂'))) = true
        then _ else none) = none
      rw [if_neg (by simpa [checkRepeat] using hle)]
  · intro rest prev
    rfl
  · intro ds rest prev hdig hbig
    rcases ds with _ | ⟨d, ds'⟩
    · exact absurd hbig (by simp [digitsVal, valAcc, REPEAT_MAX])
    · unfold pRepetition
      rw [pNumber_digits d ds' (125 :: rest) prev hdig (nonDigitHead_brace rest),
        if_neg (by omega)]
  · intro s r s' h
    unfold pRepetition at h
    rcases hpn : pNumber s with _ | ⟨mn?, s₁⟩
    · rw [hpn] at h
      exact Option.noConfusion h
    simp only [hpn] at h
    obtain ⟨ds₁, hds₁, hin₁, hv₁⟩ := pNumber_complete s mn? s₁ hpn
    rcases hs₁ : s₁.input with _ | ⟨c, t⟩
    · simp only [show advance s₁ = (none, { s₁ with prev := some s₁.input }) by
        simp [advance, hs₁]] at h
      exact Option.noConfusion h
    simp only [show advance s₁ = (some c, ⟨t, some s₁.input⟩) by
      simp [advance, hs₁]] at h
    by_cases hc44 : c = 44
    · simp only [if_pos hc44] at h
      rcases hpn₂ : pNumber ⟨t, some s₁.input⟩ with _ | ⟨mx?, s₃⟩
      · rw [hpn₂] at h
        exact Option.noConfusion h
      simp only [hpn₂] at h
      obtain ⟨ds₂, hds₂, hin₂, hv₂⟩ := pNumber_complete _ mx? s₃ hpn₂
      rcases hs₃ : s₃.input with _ | ⟨c2, t₂⟩
      · simp only [show advance s₃ = (none, { s₃ with prev := some s₃.input }) by
          simp [advance, hs₃]] at h
        exact Option.noConfusion h
      simp only [show advance s₃ = (some c2, ⟨t₂, some s₃.input⟩) by
        simp [advance, hs₃]] at h
      by_cases hc125 : c2 = 125
      · simp only [if_pos hc125] at h
        by_cases hchk : checkRepeat (mn?.getD 0) mx? = true
        · simp only [if_pos hchk] at h
          have h' := Option.some.inj h
          have hr : (mn?.getD 0, mx?) = r := congrArg Prod.fst h'
          have hs' : (⟨t₂, some s₃.input⟩ : PState) = s' := congrArg Prod.snd h'
          right
          refine ⟨ds₁, ds₂, hds₁, hds₂, ?_, ?_, ?_⟩
          · have ht : t = ds₂ ++ s₃.input := hin₂
            rw [hin₁, hs₁, hc44, ht, hs₃, hc125, ← hs']
          · rw [← hr, hv₁, hv₂]
            rcases ds₁ with _ | ⟨e₁, es₁⟩ <;> rcases ds₂ with _ | ⟨e₂, es₂⟩ <;>
              simp [accAfter]
          · rw [← hr]
            exact hchk
        · simp only [if_neg hchk] at h
          exact Option.noConfusion h
      · simp only [if_neg hc125] at h
        exact Option.noConfusion h
    · by_cases hc125 : c = 125
      · simp only [if_neg hc44, if_pos hc125] at h
        rcases mn? with _ | n
        · exact Option.noConfusion h
        have h' := Option.some.inj h
        have hr : ((n : Nat), (some n : Option Nat)) = r := congrArg Prod.fst h'
        have hs' : (⟨t, some s₁.input⟩ : PState) = s' := congrArg Prod.snd h'
        left
        rcases ds₁ with _ | ⟨d, ds''⟩
        · exact absurd hv₁ (by simp [accAfter])
        refine ⟨d :: ds'', hds₁, by simp, ?_, ?_⟩
        · rw [hin₁, hs₁, hc125, ← hs']
        · have hn : n = digitsVal (d :: ds'') := by
            simp only [accAfter] at hv₁
            exact Option.some.inj hv₁
          rw [← hr, hn]
      · simp only [if_neg hc44, if_neg hc125] at h
        exact Option.noConfusion h

/-- Witness for C7: `{2,3}` parses to `(2, Some 3)` and the boundary
count `{100000}` is accepted. -/
theorem c7_repetition_bounds_witness :
    pRepetition ⟨[50, 44, 51, 125], none⟩ = some ((2, some 3), ⟨[], some [125]⟩) ∧
    pRepetition ⟨[49, 48, 48, 48, 48, 48, 125], none⟩ =
      some ((100000, some 100000), ⟨[], some [125]⟩) := by
  constructor
  · have h := c7_repetition_bounds.2.2.2.1 [50] [51] [] none (by decide) (by decide)
      (by decide) (by decide) (by decide) (by decide)
    exact h.trans (by decide)
  · have h := c7_repetition_bounds.1 [49, 48, 48, 48, 48, 48] [] none (by decide)
      (by decide) (by decide)
    exact h.trans (by decide)

/-- Discriminator for `Repeat` nodes. -/
def isRepeatE : Expr → Bool
  | Expr.Repeat _ _ _ _ => true
  | _ => false

/-- C6: the postfix `?` of `p_concatenate` pops the last parsed item;
on a non-repeat it builds `Repeat(e, 0, Some(1), Greedy)`, on a greedy
repeat it flips greediness, and on a non-greedy repeat it raises
"multiple repeat"; illustrated end to end on `a?`, `a??` and `a???`. -/
theorem c6_question_operator :
    (∀ items e, isRepeatE e = false →
      qmark (items ++ [e]) =
        some (items ++ [Expr.Repeat e 0 (some 1) Greedy.Greedy])) ∧
    (∀ items i mn mx,
      qmark (items ++ [Expr.Repeat i mn mx Greedy.Greedy]) =
        some (items ++ [Expr.Repeat i mn mx Greedy.NonGreedy])) ∧
    (∀ items i mn mx,
      qmark (items ++ [Expr.Repeat i mn mx Greedy.NonGreedy]) = none) ∧
    parse [97, 63] = some (Expr.Repeat (Expr.Range 97 97) 0 (some 1) Greedy.Greedy) ∧
    parse [97, 63, 63] =
      some (Expr.Repeat (Expr.Range 97 97) 0 (some 1) Greedy.NonGreedy) ∧
    parse [97, 63, 63, 63] = none := by
  refine ⟨?_, ?_, ?_, rfl, rfl, rfl⟩
  · intro items e he
    unfold qmark
    rw [List.getLast?_concat, List.dropLast_concat]
    cases e with
    | Repeat i mn mx g => simp [isRepeatE] at he
    | Empty => rfl
    | Range lo hi => rfl
    | Concatenate es => rfl
    | Alternate es => rfl
    | Capture i => rfl
  · intro items i mn mx
    unfold qmark
    rw [List.getLast?_concat, List.dropLast_concat]
  · intro items i mn mx
    unfold qmark
    rw [List.getLast?_concat]

/-- Witness for C6: `?` applied to the single atom `a`. -/
theorem c6_question_operator_witness :
    qmark [Expr.Range 97 97] =
      some [Expr.Repeat (Expr.Range 97 97) 0 (some 1) Greedy.Greedy] :=
  c6_question_operator.1 [] (Expr.Range 97 97) rfl

/-- Counterexample to C5 as stated: the well-formed lookahead patterns
`(?=a)` and `(?!a)` do not parse — `p_group` knows only the `?:` and
`?#` extensions and fails with "unknown extension" on `?=` and `?!`. -/
theorem c5_lookahead_counterexample :
    parse [40, 63, 61, 97, 41] = none ∧ parse [40, 63, 33, 97, 41] = none :=
  ⟨rfl, rfl⟩

/-- C5 (amended): `p_group` rejects every `(?x…)` group whose extension
character `x` is neither `:` nor `#` — in particular the lookahead
groups `(?=…)` and `(?!…)` — with an "unknown extension" parse error. -/
theorem c5_lookahead_rejected :
    (∀ fuel c rest prev, c ≠ 58 → c ≠ 35 →
      pGroup (fuel + 1) ⟨63 :: c :: rest, prev⟩ = none) ∧
    parse [40, 63, 61, 98, 99, 41] = none ∧
    parse [40, 63, 33, 98, 99, 41] = none := by
  refine ⟨?_, rfl, rfl⟩
  intro fuel c rest prev h58 h35
  simp [pGroup, advance, h58, h35]

/-- Witness for C5's amended claim: the lookahead opener `?=` at a
concrete input. -/
theorem c5_lookahead_rejected_witness :
    pGroup 6 ⟨[63, 61, 97, 41], none⟩ = none :=
  c5_lookahead_rejected.1 5 61 [97, 41] none (by decide) (by decide)

/-! ## Byte-code compiler (`src/rose/compile.rs`)

The compiler appends instructions to a growing vector, reserving
`Empty` placeholders (`placeholder!`) that are later patched with
`Inst::replace` — which panics unless the slot still holds `Empty`.
The recursion is given fuel (a depth bound); `compile` supplies a bound
that dominates the recursion depth, which grows with the repetition
counts. -/

/-- `vm::Inst`. -/
inductive Inst where
  | Empty
  | Range (lo hi : Nat)
  | Jump (t : Nat)
  | Fork (t : Nat)
  | GFork (t : Nat)
  | Match
  deriving DecidableEq, Repr

/-- `Inst::replace`: patch position `i`, panicking (`none`) if it does
not currently hold `Empty` (or is out of bounds). -/
def replaceAt (code : List Inst) (i : Nat) (inst : Inst) : Option (List Inst) :=
  match code.get? i with
  | some Inst.Empty => some (code.set i inst)
  | _ => none

/-- Apply a list of patches in order. -/
def patchList (code : List Inst) (patches : List (Nat × Inst)) :
    Option (List Inst) :=
  match patches with
  | [] => some code
  | (i, inst) :: rest =>
    match replaceAt code i inst with
    | none => none
    | some code₁ => patchList code₁ rest

/-- `compile::make_fork`. -/
def makeFork (g : Greedy) : Nat → Inst :=
  match g with
  | Greedy.NonGreedy => Inst.Fork
  | Greedy.Greedy => Inst.GFork

/-- `!greedy`. -/
def notG (g : Greedy) : Greedy :=
  match g with
  | Greedy.NonGreedy => Greedy.Greedy
  | Greedy.Greedy => Greedy.NonGreedy

mutual

/-- `compile::compile_expr`: appends the code of `e`, failing on
`Capture` ("captures not implemented yet"). -/
def compileExprF (fuel : Nat) (code : List Inst) (e : Expr) : Option (List Inst) :=
  match fuel with
  | 0 => none
  | fuel + 1 =>
    match e with
    | Expr.Empty => some code
    | Expr.Range lo hi => some (code ++ [Inst.Range lo hi])
    | Expr.Concatenate es => compileSeqF fuel code es
    | Expr.Alternate es => compileAltF fuel code es
    | Expr.Repeat inner mn mx g => compileRepeatF fuel code inner mn mx g
    | Expr.Capture _ => none
termination_by structural fuel

/-- The `Concatenate` loop of `compile_expr`. -/
def compileSeqF (fuel : Nat) (code : List Inst) (es : List Expr) :
    Option (List Inst) :=
  match fuel with
  | 0 => none
  | fuel + 1 =>
    match es with
    | [] => some code
    | e :: rest =>
      match compileExprF fuel code e with
      | none => none
      | some code₁ => compileSeqF fuel code₁ rest
termination_by structural fuel

/-- `compile::compile_alternate`: all branches but the last get a fork
placeholder before and a jump placeholder after; then forks are patched
to the start of the next branch and jumps to the common end.  On an
empty list `inners.slice_to(len - 1)` underflows and panics (`none`). -/
def compileAltF (fuel : Nat) (code : List Inst) (es : List Expr) :
    Option (List Inst) :=
  match fuel with
  | 0 => none
  | fuel + 1 =>
    match es.getLast? with
    | none => none
    | some lastE =>
      match compileAltLoopF fuel code es.dropLast [] [] [] with
      | none => none
      | some (code₁, forks, jumps, ends) =>
        match compileExprF fuel code₁ lastE with
        | none => none
        | some code₂ =>
          match patchList code₂
              ((forks.zip ends).map (fun fe => (fe.1, Inst.Fork fe.2))) with
          | none => none
          | some code₃ =>
            patchList code₃ (jumps.map (fun j => (j, Inst.Jump code₃.length)))
termination_by structural fuel

/-- The branch loop of `compile_alternate`, recording fork positions,
jump positions and branch end offsets. -/
def compileAltLoopF (fuel : Nat) (code : List Inst) (es : List Expr)
    (forks jumps ends : List Nat) :
    Option (List Inst × List Nat × List Nat × List Nat) :=
  match fuel with
  | 0 => none
  | fuel + 1 =>
    match es with
    | [] => some (code, forks, jumps, ends)
    | e :: rest =>
      let fpos := code.length
      match compileExprF fuel (code ++ [Inst.Empty]) e with
      | none => none
      | some code₂ =>
        let jpos := code₂.length
        compileAltLoopF fuel (code₂ ++ [Inst.Empty]) rest
          (forks ++ [fpos]) (jumps ++ [jpos]) (ends ++ [code₂.length + 1])
termination_by structural fuel

/-- `compile::compile_repeat`, arm by arm. -/
def compileRepeatF (fuel : Nat) (code : List Inst) (inner : Expr)
    (mn : Nat) (mx : Option Nat) (g : Greedy) : Option (List Inst) :=
  match fuel with
  | 0 => none
  | fuel + 1 =>
    match mx with
    | some mx' =>
      match compileTimesF fuel code inner mn with
      | none => none
      | some code₁ =>
        match compileForksF fuel code₁ inner (mx' - mn) [] with
        | none => none
        | some (code₂, forks) =>
          patchList code₂ (forks.map (fun f => (f, makeFork (notG g) code₂.length)))
    | none =>
      if mn = 0 then
        let fpos := code.length
        match compileRepeatF fuel (code ++ [Inst.Empty]) inner 1 none g with
        | none => none
        | some code₂ => replaceAt code₂ fpos (makeFork (notG g) code₂.length)
      else
        match compileTimesTrackF fuel code inner mn 0 with
        | none => none
        | some (code₁, loopStart) =>
          replaceAt (code₁ ++ [Inst.Empty]) code₁.length (makeFork g loopStart)
termination_by structural fuel

/-- `min` sequential copies of `inner`. -/
def compileTimesF (fuel : Nat) (code : List Inst) (inner : Expr) (times : Nat) :
    Option (List Inst) :=
  match fuel with
  | 0 => none
  | fuel + 1 =>
    match times with
    | 0 => some code
    | times + 1 =>
      match compileExprF fuel code inner with
      | none => none
      | some code₁ => compileTimesF fuel code₁ inner times
termination_by structural fuel

/-- The `range(min, max_)` loop of the bounded arm: a fork placeholder
before each optional copy. -/
def compileForksF (fuel : Nat) (code : List Inst) (inner : Expr) (count : Nat)
    (forks : List Nat) : Option (List Inst × List Nat) :=
  match fuel with
  | 0 => none
  | fuel + 1 =>
    match count with
    | 0 => some (code, forks)
    | count + 1 =>
      let fpos := code.length
      match compileExprF fuel (code ++ [Inst.Empty]) inner with
      | none => none
      | some code₂ => compileForksF fuel code₂ inner count (forks ++ [fpos])
termination_by structural fuel

/-- The `range(0, min)` loop of the unbounded arm, tracking
`loop_start` (the offset of the latest copy; initially `0`). -/
def compileTimesTrackF (fuel : Nat) (code : List Inst) (inner : Expr)
    (times : Nat) (loopStart : Nat) : Option (List Inst × Nat) :=
  match fuel with
  | 0 => none
  | fuel + 1 =>
    match times with
    | 0 => some (code, loopStart)
    | times + 1 =>
      match compileExprF fuel code inner with
      | none => none
      | some code₁ => compileTimesTrackF fuel code₁ inner times code.length
termination_by structural fuel

end

mutual

/-- A size measure on expressions that also counts the literal
repetition bounds (the compiler's recursion depth grows with them). -/
def exprSize : Expr → Nat
  | Expr.Empty => 1
  | Expr.Range _ _ => 1
  | Expr.Concatenate es => exprSizeList es + 1
  | Expr.Alternate es => exprSizeList es + 1
  | Expr.Repeat inner mn mx _ => exprSize inner + mn + mx.getD 0 + 2
  | Expr.Capture inner => exprSize inner + 1

def exprSizeList : List Expr → Nat
  | [] => 0
  | e :: rest => exprSize e + exprSizeList rest + 1

end

/-- A fuel bound dominating the compiler's recursion depth (which grows
with `exprSize e`, in particular with the literal repetition counts). -/
def compileFuel (e : Expr) : Nat := 8 * (exprSize e + 2)

/-- `compile::compile`: compile the expression, then push `Match`. -/
def compile (e : Expr) : Option (List Inst) :=
  match compileExprF (compileFuel e) [] e with
  | none => none
  | some code => some (code ++ [Inst.Match])

/-- The whole pipeline of the library's `compile` façade
(`lib.rs`): parse the pattern, then compile the AST. -/
def roseCompileStr (pat : List Nat) : Option (List Inst) :=
  (parse pat).bind compile

/-! ## The Pike VM (`src/vm.rs`) and `Regex::matches` (`lib.rs`)

Possible runtime failures of the Rust code, kept apart so that the
theorems can speak about which ones can occur:
out-of-bounds indexing (`code[t.pc]`), the `unreachable!` arm of
`feed`, the `assert!` in `is_match`, and non-termination of the
recursive `follow` (in Rust, unbounded recursion: a stack overflow).
`follow` recurses along ε-transitions without marking visited
instructions, so on an acyclic ε-graph its depth is at most the number
of distinct program counters, i.e. `code.length`; running out of the
fuel `code.length + 1` therefore means some pc repeated along one call
path, and from that pc the recursion reproduces itself forever. -/

inductive VmErr where
  | oob
  | unreachable
  | assertFail
  | fuel
  deriving DecidableEq, Repr

/-- `ThreadList::add`: push the pc unless one equal to it is already
present (the `TrieSet` of indices). -/
def tlAdd (tl : List Nat) (pc : Nat) : List Nat :=
  if pc ∈ tl then tl else tl ++ [pc]

/-- `vm::follow`, with explicit fuel standing for the call stack:
recursively add the targets of the instruction at `pc` to the list,
returning `true` iff a `Match` was encountered.  The `Fork`/`GFork`
arms use bitwise `|`, so both sides are evaluated (no short circuit). -/
def followF (code : List Inst) : Nat → Nat → List Nat → Except VmErr (List Nat × Bool)
  | 0, _, _ => Except.error VmErr.fuel
  | fuel + 1, pc, tl =>
    match code[pc]? with
    | none => Except.error VmErr.oob
    | some inst =>
      match inst with
      | Inst.Empty => followF code fuel (pc + 1) tl
      | Inst.Jump there => followF code fuel there tl
      | Inst.Fork other =>
        match followF code fuel (pc + 1) tl with
        | Except.error e => Except.error e
        | Except.ok (tl₁, m₁) =>
          match followF code fuel other tl₁ with
          | Except.error e => Except.error e
          | Except.ok (tl₂, m₂) => Except.ok (tl₂, m₁ || m₂)
      | Inst.GFork other =>
        match followF code fuel other tl with
        | Except.error e => Except.error e
        | Except.ok (tl₁, m₁) =>
          match followF code fuel (pc + 1) tl₁ with
          | Except.error e => Except.error e
          | Except.ok (tl₂, m₂) => Except.ok (tl₂, m₁ || m₂)
      | Inst.Range _ _ => Except.ok (tlAdd tl pc, false)
      | Inst.Match => Except.ok (tlAdd tl pc, true)

/-- `follow` with the canonical fuel `code.length + 1` (see above). -/
def follow (code : List Inst) (pc : Nat) (tl : List Nat) :
    Except VmErr (List Nat × Bool) :=
  followF code (code.length + 1) pc tl

/-- The mutable state of `vm::VM` (the code is passed separately; the
`next` buffer is local to `feed`). -/
structure VMS where
  threads : List Nat
  matched : Bool
  deriving DecidableEq, Repr

/-- `VM::new`: seed the thread list by following from pc 0.  The
boolean returned by the initial `follow` is discarded. -/
def VMnew (code : List Inst) : Except VmErr VMS :=
  match follow code 0 [] with
  | Except.error e => Except.error e
  | Except.ok (tl, _) => Except.ok ⟨tl, false⟩

/-- The thread loop of `VM::feed`: on a `Range` hit, follow the
successor into `next`; if that reports a match, set the flag and break
(cutting off lower-priority threads).  A thread on anything other than
`Range` or `Match` is `unreachable!`. -/
def feedLoop (code : List Inst) (c : Nat) :
    List Nat → List Nat → Except VmErr (List Nat × Bool)
  | [], next => Except.ok (next, false)
  | pc :: rest, next =>
    match code[pc]? with
    | none => Except.error VmErr.oob
    | some (Inst.Range lo hi) =>
      if lo ≤ c ∧ c ≤ hi then
        match follow code (pc + 1) next with
        | Except.error e => Except.error e
        | Except.ok (next₁, m) =>
          if m then Except.ok (next₁, true)
          else feedLoop code c rest next₁
      else feedLoop code c rest next
    | some Inst.Match => feedLoop code c rest next
    | some _ => Except.error VmErr.unreachable

/-- `VM::feed`: reset `matched`, run the threads into a fresh `next`
buffer, then swap the buffers. -/
def feed (code : List Inst) (vm : VMS) (c : Nat) : Except VmErr VMS :=
  match feedLoop code c vm.threads [] with
  | Except.error e => Except.error e
  | Except.ok (next, m) => Except.ok ⟨next, m⟩

/-- The `rev().any(..)` loop of `VM::is_match_slow`, including the
indexing panic. -/
def isMatchSlowLoop (code : List Inst) : List Nat → Except VmErr Bool
  | [] => Except.ok false
  | pc :: rest =>
    match code[pc]? with
    | none => Except.error VmErr.oob
    | some Inst.Match => Except.ok true
    | some _ => isMatchSlowLoop code rest

/-- `VM::is_match_slow`: scan the threads in reverse for a `Match`. -/
def isMatchSlow (code : List Inst) (vm : VMS) : Except VmErr Bool :=
  isMatchSlowLoop code vm.threads.reverse

/-- `VM::is_match`: assert that the flag agrees with the slow scan,
then return it. -/
def is_match (code : List Inst) (vm : VMS) : Except VmErr Bool :=
  match isMatchSlow code vm with
  | Except.error e => Except.error e
  | Except.ok b => if b = vm.matched then Except.ok vm.matched
                   else Except.error VmErr.assertFail

/-- The character loop of `Regex::matches`: feed each character and
return `true` as soon as `is_match` reports a match. -/
def matchLoop (code : List Inst) (vm : VMS) : List Nat → Except VmErr Bool
  | [] => Except.ok false
  | c :: rest =>
    match feed code vm c with
    | Except.error e => Except.error e
    | Except.ok vm₁ =>
      match is_match code vm₁ with
      | Except.error e => Except.error e
      | Except.ok true => Except.ok true
      | Except.ok false => matchLoop code vm₁ rest

/-- `Regex::matches`: build the VM, then run the character loop. -/
def Regex.matches (code : List Inst) (s : List Nat) : Except VmErr Bool :=
  match VMnew code with
  | Except.error e => Except.error e
  | Except.ok vm => matchLoop code vm s

/-- Run a sequence of `feed`s (no `is_match` in between); used to state
what configuration the automaton is in after consuming a prefix. -/
def runFeeds (code : List Inst) (vm : VMS) : List Nat → Except VmErr VMS
  | [] => Except.ok vm
  | c :: rest =>
    match feed code vm c with
    | Except.error e => Except.error e
    | Except.ok vm₁ => runFeeds code vm₁ rest

/-- A pc is valid when it points at a `Range` or `Match` instruction —
the only instructions a parked thread may sit on. -/
def pcValid (code : List Inst) (pc : Nat) : Bool :=
  match code[pc]? with
  | some (Inst.Range _ _) => true
  | some Inst.Match => true
  | _ => false

/-- The thread-list invariant: distinct pcs, all valid. -/
def tlInv (code : List Inst) (tl : List Nat) : Prop :=
  tl.Nodup ∧ ∀ pc ∈ tl, pcValid code pc = true

instance (code : List Inst) (tl : List Nat) : Decidable (tlInv code tl) := by
  unfold tlInv; infer_instance

/-! ### Invariants of `follow` and `feed` -/

theorem tlAdd_mem (tl : List Nat) (pc x : Nat) :
    x ∈ tlAdd tl pc ↔ x ∈ tl ∨ x = pc := by
  unfold tlAdd
  by_cases h : pc ∈ tl
  · simp only [if_pos h]
    constructor
    · exact fun hx => Or.inl hx
    · rintro (hx | rfl)
      · exact hx
      · exact h
  · simp [if_neg h]

theorem tlAdd_nodup (tl : List Nat) (pc : Nat) (h : tl.Nodup) :
    (tlAdd tl pc).Nodup := by
  unfold tlAdd
  by_cases hm : pc ∈ tl
  · simpa [if_pos hm] using h
  · simp only [if_neg hm]
    rw [List.nodup_append]
    exact ⟨h, List.nodup_singleton pc, by simpa [List.disjoint_singleton] using hm⟩

/-- What a successful `follow` guarantees: the input threads survive,
every new thread sits on `Range` or `Match`, distinctness is
preserved, a `true` verdict pinpoints a `Match` thread, and a `false`
verdict means no `Match` thread was added. -/
theorem followF_props (code : List Inst) :
    ∀ fuel pc tl res, followF code fuel pc tl = Except.ok res →
      (∀ x ∈ tl, x ∈ res.1) ∧
      (∀ x ∈ res.1, x ∈ tl ∨ pcValid code x = true) ∧
      (tl.Nodup → res.1.Nodup) ∧
      (res.2 = true → ∃ p ∈ res.1, code[p]? = some Inst.Match) ∧
      (res.2 = false → ∀ x ∈ res.1, x ∉ tl → code[x]? ≠ some Inst.Match) := by
  intro fuel
  induction fuel with
  | zero => intro pc tl res h; exact absurd h (by simp [followF])
  | succ fuel ih =>
    intro pc tl res h
    simp only [followF] at h
    cases hget : code[pc]? with
    | none => simp [hget] at h
    | some inst =>
      simp only [hget] at h
      cases inst with
      | Empty => exact ih (pc + 1) tl res h
      | Jump there => exact ih there tl res h
      | Fork other =>
        cases h₁ : followF code fuel (pc + 1) tl with
        | error e => simp [h₁] at h
        | ok r₁ =>
          obtain ⟨tl₁, m₁⟩ := r₁
          simp only [h₁] at h
          cases h₂ : followF code fuel other tl₁ with
          | error e => simp [h₂] at h
          | ok r₂ =>
            obtain ⟨tl₂, m₂⟩ := r₂
            simp only [h₂] at h
            cases h
            obtain ⟨ha₁, hb₁, hc₁, hd₁, he₁⟩ := ih (pc + 1) tl ⟨tl₁, m₁⟩ h₁
            obtain ⟨ha₂, hb₂, hc₂, hd₂, he₂⟩ := ih other tl₁ ⟨tl₂, m₂⟩ h₂
            refine ⟨fun x hx => ha₂ x (ha₁ x hx), ?_, fun hn => hc₂ (hc₁ hn), ?_, ?_⟩
            · intro x hx
              rcases hb₂ x hx with hx₁ | hv
              · rcases hb₁ x hx₁ with hx₀ | hv
                · exact Or.inl hx₀
                · exact Or.inr hv
              · exact Or.inr hv
            · intro hm
              rcases Bool.or_eq_true_iff.1 hm with hm₁ | hm₂
              · obtain ⟨p, hp, hpm⟩ := hd₁ hm₁
                exact ⟨p, ha₂ p hp, hpm⟩
              · exact hd₂ hm₂
            · intro hm x hx hnx
              rcases Bool.or_eq_false_iff.1 hm with ⟨hm₁, hm₂⟩
              by_cases hx₁ : x ∈ tl₁
              · exact he₁ hm₁ x hx₁ hnx
              · exact he₂ hm₂ x hx hx₁
      | GFork other =>
        cases h₁ : followF code fuel other tl with
        | error e => simp [h₁] at h
        | ok r₁ =>
          obtain ⟨tl₁, m₁⟩ := r₁
          simp only [h₁] at h
          cases h₂ : followF code fuel (pc + 1) tl₁ with
          | error e => simp [h₂] at h
          | ok r₂ =>
            obtain ⟨tl₂, m₂⟩ := r₂
            simp only [h₂] at h
            cases h
            obtain ⟨ha₁, hb₁, hc₁, hd₁, he₁⟩ := ih other tl ⟨tl₁, m₁⟩ h₁
            obtain ⟨ha₂, hb₂, hc₂, hd₂, he₂⟩ := ih (pc + 1) tl₁ ⟨tl₂, m₂⟩ h₂
            refine ⟨fun x hx => ha₂ x (ha₁ x hx), ?_, fun hn => hc₂ (hc₁ hn), ?_, ?_⟩
            · intro x hx
              rcases hb₂ x hx with hx₁ | hv
              · rcases hb₁ x hx₁ with hx₀ | hv
                · exact Or.inl hx₀
                · exact Or.inr hv
              · exact Or.inr hv
            · intro hm
              rcases Bool.or_eq_true_iff.1 hm with hm₁ | hm₂
              · obtain ⟨p, hp, hpm⟩ := hd₁ hm₁
                exact ⟨p, ha₂ p hp, hpm⟩
              · exact hd₂ hm₂
            · intro hm x hx hnx
              rcases Bool.or_eq_false_iff.1 hm with ⟨hm₁, hm₂⟩
              by_cases hx₁ : x ∈ tl₁
              · exact he₁ hm₁ x hx₁ hnx
              · exact he₂ hm₂ x hx hx₁
      | Range lo hi =>
        cases h
        refine ⟨fun x hx => (tlAdd_mem tl pc x).2 (Or.inl hx), ?_,
          fun hn => tlAdd_nodup tl pc hn, by simp, ?_⟩
        · intro x hx
          rcases (tlAdd_mem tl pc x).1 hx with hx₀ | rfl
          · exact Or.inl hx₀
          · exact Or.inr (by simp [pcValid, hget])
        · intro _ x hx hnx
          rcases (tlAdd_mem tl pc x).1 hx with hx₀ | rfl
          · exact absurd hx₀ hnx
          · simp [hget]
      | Match =>
        cases h
        refine ⟨fun x hx => (tlAdd_mem tl pc x).2 (Or.inl hx), ?_,
          fun hn => tlAdd_nodup tl pc hn, ?_, by simp⟩
        · intro x hx
          rcases (tlAdd_mem tl pc x).1 hx with hx₀ | rfl
          · exact Or.inl hx₀
          · exact Or.inr (by simp [pcValid, hget])
        · intro _
          exact ⟨pc, (tlAdd_mem tl pc pc).2 (Or.inr rfl), hget⟩

/-- `follow` can only fail by indexing out of bounds or by genuine
divergence — never with the `unreachable!`/`assert!` failures. -/
theorem followF_err (code : List Inst) :
    ∀ fuel pc tl e, followF code fuel pc tl = Except.error e →
      e = VmErr.oob ∨ e = VmErr.fuel := by
  intro fuel
  induction fuel with
  | zero =>
    intro pc tl e h
    simp only [followF, Except.error.injEq] at h
    exact Or.inr h.symm
  | succ fuel ih =>
    intro pc tl e h
    simp only [followF] at h
    cases hget : code[pc]? with
    | none =>
      simp only [hget, Except.error.injEq] at h
      exact Or.inl h.symm
    | some inst =>
      simp only [hget] at h
      cases inst with
      | Empty => exact ih (pc + 1) tl e h
      | Jump there => exact ih there tl e h
      | Fork other =>
        cases h₁ : followF code fuel (pc + 1) tl with
        | error e₁ =>
          simp only [h₁, Except.error.injEq] at h
          exact h.symm ▸ ih (pc + 1) tl e₁ h₁
        | ok r₁ =>
          obtain ⟨tl₁, m₁⟩ := r₁
          simp only [h₁] at h
          cases h₂ : followF code fuel other tl₁ with
          | error e₂ =>
            simp only [h₂, Except.error.injEq] at h
            subst h; exact ih other tl₁ e₂ h₂
          | ok r₂ =>
            obtain ⟨tl₂, m₂⟩ := r₂
            simp [h₂] at h
      | GFork other =>
        cases h₁ : followF code fuel other tl with
        | error e₁ =>
          simp only [h₁, Except.error.injEq] at h
          exact h.symm ▸ ih other tl e₁ h₁
        | ok r₁ =>
          obtain ⟨tl₁, m₁⟩ := r₁
          simp only [h₁] at h
          cases h₂ : followF code fuel (pc + 1) tl₁ with
          | error e₂ =>
            simp only [h₂, Except.error.injEq] at h
            subst h; exact ih (pc + 1) tl₁ e₂ h₂
          | ok r₂ =>
            obtain ⟨tl₂, m₂⟩ := r₂
            simp [h₂] at h
      | Range lo hi => simp at h
      | Match => simp at h

/-- A valid pc points at a `Range` or at `Match`. -/
theorem pcValid_cases (code : List Inst) (pc : Nat) (h : pcValid code pc = true) :
    (∃ lo hi, code[pc]? = some (Inst.Range lo hi)) ∨ code[pc]? = some Inst.Match := by
  unfold pcValid at h
  split at h
  · rename_i lo hi hget
    exact Or.inl ⟨lo, hi, hget⟩
  · rename_i hget
    exact Or.inr hget
  · exact absurd h (by simp)

/-- What a successful pass of the `feed` thread loop guarantees,
generalizing over the partially filled `next` buffer. -/
theorem feedLoop_props (code : List Inst) (c : Nat) :
    ∀ tl next res, feedLoop code c tl next = Except.ok res →
      (∀ x ∈ res.1, x ∈ next ∨ pcValid code x = true) ∧
      (next.Nodup → res.1.Nodup) ∧
      (res.2 = true → ∃ p ∈ res.1, code[p]? = some Inst.Match) ∧
      (res.2 = false → (∀ x ∈ next, code[x]? ≠ some Inst.Match) →
        ∀ x ∈ res.1, code[x]? ≠ some Inst.Match) := by
  intro tl
  induction tl with
  | nil =>
    intro next res h
    simp only [feedLoop] at h
    cases h
    exact ⟨fun x hx => Or.inl hx, id, by simp, fun _ hn => hn⟩
  | cons pc rest ih =>
    intro next res h
    simp only [feedLoop] at h
    split at h
    · exact absurd h (by simp)
    · rename_i lo hi hget
      split at h
      · rename_i hc
        cases hf : follow code (pc + 1) next with
        | error e => simp [hf] at h
        | ok r =>
          obtain ⟨next₁, m⟩ := r
          simp only [hf] at h
          obtain ⟨fa, fb, fc, fd, fe⟩ :=
            followF_props code (code.length + 1) (pc + 1) next ⟨next₁, m⟩ hf
          cases m with
          | true =>
            rw [if_pos rfl] at h
            cases h
            exact ⟨fb, fc, fun _ => fd rfl, by simp⟩
          | false =>
            rw [if_neg (by simp)] at h
            obtain ⟨ia, ib, ic, id'⟩ := ih next₁ res h
            refine ⟨?_, fun hn => ib (fc hn), ic, ?_⟩
            · intro x hx
              rcases ia x hx with hx₁ | hv
              · rcases fb x hx₁ with hx₀ | hv
                · exact Or.inl hx₀
                · exact Or.inr hv
              · exact Or.inr hv
            · intro hres hnone
              refine id' hres ?_
              intro x hx₁
              by_cases hx₀ : x ∈ next
              · exact hnone x hx₀
              · exact fe rfl x hx₁ hx₀
      · exact ih next res h
    · exact ih next res h
    · exact absurd h (by simp)

/-- When every parked thread is on `Range` or `Match`, the thread loop
of `feed` can fail only inside `follow` — by out-of-bounds or
divergence — and never reaches its `unreachable!` arm. -/
theorem feedLoop_err (code : List Inst) (c : Nat) :
    ∀ tl next e, (∀ pc ∈ tl, pcValid code pc = true) →
      feedLoop code c tl next = Except.error e →
      e = VmErr.oob ∨ e = VmErr.fuel := by
  intro tl
  induction tl with
  | nil => intro next e _ h; simp [feedLoop] at h
  | cons pc rest ih =>
    intro next e hv h
    have hpc : pcValid code pc = true := hv pc (List.mem_cons_self pc rest)
    have hv' : ∀ p ∈ rest, pcValid code p = true :=
      fun p hp => hv p (List.mem_cons_of_mem pc hp)
    simp only [feedLoop] at h
    split at h
    · rename_i hget
      rcases pcValid_cases code pc hpc with ⟨lo, hi, hr⟩ | hm
      · rw [hget] at hr
        exact Option.noConfusion hr
      · rw [hget] at hm
        exact Option.noConfusion hm
    · rename_i lo hi hget
      split at h
      · rename_i hc
        cases hf : follow code (pc + 1) next with
        | error e₁ =>
          simp only [hf, Except.error.injEq] at h
          exact h.symm ▸ followF_err code (code.length + 1) (pc + 1) next e₁ hf
        | ok r =>
          obtain ⟨next₁, m⟩ := r
          simp only [hf] at h
          cases m with
          | true => rw [if_pos rfl] at h; exact absurd h (by simp)
          | false =>
            rw [if_neg (by simp)] at h
            exact ih next₁ e hv' h
      · exact ih next e hv' h
    · exact ih next e hv' h
    · rename_i val hnR hnM hget
      rcases pcValid_cases code pc hpc with ⟨lo, hi, hr⟩ | hm
      · rw [hget] at hr
        exact absurd (Option.some.inj hr) (fun hv => hnR lo hi hv)
      · rw [hget] at hm
        exact absurd (Option.some.inj hm) hnM

/-- After any successful `feed`, the thread-list invariant holds and
the `matched` flag is `true` exactly when some thread is on `Match` —
with no assumption on the state the VM was fed from. -/
theorem feed_props (code : List Inst) (vm : VMS) (c : Nat) (vm₁ : VMS)
    (h : feed code vm c = Except.ok vm₁) :
    tlInv code vm₁.threads ∧
    (vm₁.matched = true ↔ ∃ p ∈ vm₁.threads, code[p]? = some Inst.Match) := by
  simp only [feed] at h
  cases hl : feedLoop code c vm.threads [] with
  | error e => simp [hl] at h
  | ok r =>
    obtain ⟨next, m⟩ := r
    simp only [hl] at h
    cases h
    obtain ⟨pa, pb, pc', pd⟩ := feedLoop_props code c vm.threads [] ⟨next, m⟩ hl
    refine ⟨⟨pb List.nodup_nil, ?_⟩, ?_⟩
    · intro p hp
      rcases pa p hp with hmem | hval
      · exact absurd hmem (List.not_mem_nil p)
      · exact hval
    · constructor
      · exact fun hm => pc' hm
      · intro hex
        cases hmb : m with
        | true => rfl
        | false =>
          obtain ⟨p, hp, hpm⟩ := hex
          exact absurd hpm (pd hmb (by simp) p hp)

/-- A `feed` from a state satisfying the invariant can fail only by
out-of-bounds or divergence, never via `unreachable!`. -/
theorem feed_err (code : List Inst) (vm : VMS) (c : Nat) (e : VmErr)
    (hv : ∀ p ∈ vm.threads, pcValid code p = true)
    (h : feed code vm c = Except.error e) :
    e = VmErr.oob ∨ e = VmErr.fuel := by
  simp only [feed] at h
  cases hl : feedLoop code c vm.threads [] with
  | error e₁ =>
    simp only [hl, Except.error.injEq] at h
    exact h.symm ▸ feedLoop_err code c vm.threads [] e₁ hv hl
  | ok r => obtain ⟨next, m⟩ := r; simp [hl] at h

/-- The `is_match_slow` scan evaluates the "some thread on `Match`"
test whenever all pcs are valid. -/
theorem isMatchSlowLoop_eq (code : List Inst) :
    ∀ l, (∀ p ∈ l, pcValid code p = true) →
      isMatchSlowLoop code l =
        Except.ok (l.any fun p => decide (code[p]? = some Inst.Match)) := by
  intro l
  induction l with
  | nil => intro _; rfl
  | cons pc rest ih =>
    intro hv
    have hpc : pcValid code pc = true := hv pc (List.mem_cons_self pc rest)
    have hv' : ∀ p ∈ rest, pcValid code p = true :=
      fun p hp => hv p (List.mem_cons_of_mem pc hp)
    simp only [isMatchSlowLoop]
    cases hget : code[pc]? with
    | none => simp [pcValid, hget] at hpc
    | some inst =>
      cases inst with
      | Range lo hi => rw [ih hv']; simp [hget]
      | Match => simp [hget]
      | Empty => simp [pcValid, hget] at hpc
      | Jump t => simp [pcValid, hget] at hpc
      | Fork t => simp [pcValid, hget] at hpc
      | GFork t => simp [pcValid, hget] at hpc

/-- Under the invariant established by `feed`, the `assert!` in
`is_match` holds and `is_match` returns the `matched` flag. -/
theorem is_match_ok (code : List Inst) (vm : VMS)
    (hv : ∀ p ∈ vm.threads, pcValid code p = true)
    (hiff : vm.matched = true ↔ ∃ p ∈ vm.threads, code[p]? = some Inst.Match) :
    is_match code vm = Except.ok vm.matched := by
  have hvr : ∀ p ∈ vm.threads.reverse, pcValid code p = true := by
    intro p hp
    exact hv p (List.mem_reverse.1 hp)
  have hslow := isMatchSlowLoop_eq code vm.threads.reverse hvr
  have hb : (vm.threads.reverse.any fun p => decide (code[p]? = some Inst.Match))
      = vm.matched := by
    cases hm : vm.matched with
    | true =>
      obtain ⟨p, hp, hpm⟩ := hiff.1 hm
      simp only [List.any_eq_true]
      exact ⟨p, List.mem_reverse.2 hp, by simp [hpm]⟩
    | false =>
      simp only [List.any_eq_false]
      intro p hp
      simp only [decide_eq_true_eq]
      intro hpm
      have : vm.matched = true := hiff.2 ⟨p, List.mem_reverse.1 hp, hpm⟩
      rw [hm] at this
      exact Bool.noConfusion this
  simp only [is_match, isMatchSlow, hslow, hb, if_pos]

/-- `VM::new` establishes the invariant, with the flag cleared. -/
theorem VMnew_props (code : List Inst) (vm₀ : VMS)
    (h : VMnew code = Except.ok vm₀) :
    tlInv code vm₀.threads ∧ vm₀.matched = false := by
  simp only [VMnew] at h
  cases hf : follow code 0 [] with
  | error e => simp [hf] at h
  | ok r =>
    obtain ⟨tl, m⟩ := r
    simp only [hf] at h
    cases h
    obtain ⟨fa, fb, fc, fd, fe⟩ :=
      followF_props code (code.length + 1) 0 [] ⟨tl, m⟩ hf
    refine ⟨⟨fc List.nodup_nil, ?_⟩, rfl⟩
    intro p hp
    rcases fb p hp with hmem | hval
    · exact absurd hmem (List.not_mem_nil p)
    · exact hval

/-! ### The `matches` loop -/

/-- Early acceptance is stable under extending the input. -/
theorem matchLoop_mono (code : List Inst) :
    ∀ s vm t, matchLoop code vm s = Except.ok true →
      matchLoop code vm (s ++ t) = Except.ok true := by
  intro s
  induction s with
  | nil =>
    intro vm t h
    simp only [matchLoop] at h
    exact absurd (Except.ok.inj h) (by simp)
  | cons c rest ih =>
    intro vm t h
    rw [List.cons_append]
    simp only [matchLoop] at h ⊢
    cases hfd : feed code vm c with
    | error e => simp [hfd] at h
    | ok vm₁ =>
      simp only [hfd] at h ⊢
      cases him : is_match code vm₁ with
      | error e => simp [him] at h
      | ok b =>
        cases b with
        | true => simp only [him]
        | false =>
          simp only [him] at h ⊢
          exact ih vm₁ t h
/-- The character loop accepts exactly when some non-empty prefix of
the remaining input, fed character by character, ends in a state whose
`matched` flag is set. -/
theorem matchLoop_iff (code : List Inst) :
    ∀ s vm, matchLoop code vm s = Except.ok true ↔
      ∃ k vm', 1 ≤ k ∧ k ≤ s.length ∧
        runFeeds code vm (List.take k s) = Except.ok vm' ∧
        vm'.matched = true := by
  intro s
  induction s with
  | nil =>
    intro vm
    constructor
    · intro h
      simp only [matchLoop] at h
      exact absurd (Except.ok.inj h) (by simp)
    · rintro ⟨k, vm', hk1, hk0, _, _⟩
      simp only [List.length_nil] at hk0
      omega
  | cons c rest ih =>
    intro vm
    cases hfd : feed code vm c with
    | error e =>
      constructor
      · intro h
        simp only [matchLoop, hfd] at h
        exact Except.noConfusion h
      · rintro ⟨k, vm', hk1, hk0, hrun, hm⟩
        cases k with
        | zero => omega
        | succ k' =>
          simp only [List.take_succ_cons, runFeeds, hfd] at hrun
          exact Except.noConfusion hrun
    | ok vm₁ =>
      have hprops := feed_props code vm c vm₁ hfd
      have him := is_match_ok code vm₁ hprops.1.2 hprops.2
      cases hm₁ : vm₁.matched with
      | true =>
        rw [hm₁] at him
        constructor
        · intro _
          refine ⟨1, vm₁, le_refl 1, by simp, ?_, hm₁⟩
          simp [runFeeds, hfd]
        · intro _
          simp only [matchLoop, hfd, him]
      | false =>
        rw [hm₁] at him
        have hlhs : matchLoop code vm (c :: rest) = matchLoop code vm₁ rest := by
          simp only [matchLoop, hfd, him]
        rw [hlhs, ih vm₁]
        constructor
        · rintro ⟨k, vm', hk1, hk0, hrun, hm⟩
          refine ⟨k + 1, vm', by omega, by simp; omega, ?_, hm⟩
          simp only [List.take_succ_cons, runFeeds, hfd]
          exact hrun
        · rintro ⟨k, vm', hk1, hk0, hrun, hm⟩
          cases k with
          | zero => omega
          | succ k' =>
            simp only [List.take_succ_cons, runFeeds, hfd] at hrun
            cases k' with
            | zero =>
              simp only [List.take_zero, runFeeds] at hrun
              cases hrun
              exact absurd hm (by simp [hm₁])
            | succ k'' =>
              refine ⟨k'' + 1, vm', by omega, ?_, hrun, hm⟩
              simp only [List.length_cons] at hk0
              omega


/-- After feeding at least one character, the `matched` flag agrees
with "some thread sits on `Match`". -/
theorem runFeeds_matched_iff (code : List Inst) :
    ∀ l vm vm', l ≠ [] → runFeeds code vm l = Except.ok vm' →
      (vm'.matched = true ↔ ∃ p ∈ vm'.threads, code[p]? = some Inst.Match) := by
  intro l
  induction l with
  | nil => intro vm vm' hne _; exact absurd rfl hne
  | cons c rest ih =>
    intro vm vm' _ hrun
    simp only [runFeeds] at hrun
    cases hfd : feed code vm c with
    | error e =>
      simp only [hfd] at hrun
      exact Except.noConfusion hrun
    | ok vm₁ =>
      simp only [hfd] at hrun
      by_cases hr : rest = []
      · subst hr
        simp only [runFeeds] at hrun
        cases hrun
        exact (feed_props code vm c vm' hfd).2
      · exact ih vm₁ vm' hr hrun

/-- C1: capturing groups are *not* transparent to matching: both the
generic and the end-to-end compiler fail on any `Capture` node
("captures not implemented yet"), so `compile("(a|b)c")` fails rather
than succeeding; the capture-free variant `(?:a|b)c` compiles and
matches "ac". -/
theorem c1_capture_not_transparent :
    (∀ fuel code e, compileExprF fuel code (Expr.Capture e) = none) ∧
    (∀ e, compile (Expr.Capture e) = none) ∧
    roseCompileStr [40, 97, 124, 98, 41, 99] = none ∧
    ∃ code, roseCompileStr [40, 63, 58, 97, 124, 98, 41, 99] = some code ∧
      Regex.matches code [97, 99] = Except.ok true := by
  have hcap : ∀ fuel code e, compileExprF fuel code (Expr.Capture e) = none := by
    intro fuel code e
    cases fuel with
    | zero => rfl
    | succ f => rfl
  refine ⟨hcap, ?_, rfl, ?_⟩
  · intro e
    simp only [compile, hcap]
  · exact ⟨[Inst.Fork 3, Inst.Range 97 97, Inst.Jump 4, Inst.Range 98 98,
      Inst.Range 99 99, Inst.Match], rfl, rfl⟩

theorem c1_capture_counterexample :
    parse [40, 97, 124, 98, 41, 99] =
      some (Expr.Concatenate
        [Expr.Capture (Expr.Alternate [Expr.Range 97 97, Expr.Range 98 98]),
         Expr.Range 99 99]) ∧
    roseCompileStr [40, 97, 124, 98, 41, 99] = none :=
  ⟨rfl, rfl⟩

/-- C2: `matches` returns `true` iff some *non-empty* prefix of the
input drives the automaton into an accepting configuration (a thread
parked on `Match`) after consuming that prefix.  The empty prefix does
not count (see the counterexample). -/
theorem c2_matches_prefix (code : List Inst) (vm₀ : VMS)
    (h₀ : VMnew code = Except.ok vm₀) (s : List Nat) :
    Regex.matches code s = Except.ok true ↔
      ∃ k vm', 1 ≤ k ∧ k ≤ s.length ∧
        runFeeds code vm₀ (List.take k s) = Except.ok vm' ∧
        ∃ p ∈ vm'.threads, code[p]? = some Inst.Match := by
  unfold Regex.matches
  simp only [h₀]
  rw [matchLoop_iff code s vm₀]
  constructor
  · rintro ⟨k, vm', hk1, hk0, hrun, hm⟩
    have hne : List.take k s ≠ [] := by
      intro hnil
      have := congrArg List.length hnil
      simp only [List.length_take, List.length_nil] at this
      omega
    exact ⟨k, vm', hk1, hk0, hrun,
      (runFeeds_matched_iff code (List.take k s) vm₀ vm' hne hrun).1 hm⟩
  · rintro ⟨k, vm', hk1, hk0, hrun, hacc⟩
    have hne : List.take k s ≠ [] := by
      intro hnil
      have := congrArg List.length hnil
      simp only [List.length_take, List.length_nil] at this
      omega
    exact ⟨k, vm', hk1, hk0, hrun,
      (runFeeds_matched_iff code (List.take k s) vm₀ vm' hne hrun).2 hacc⟩

theorem c2_matches_prefix_witness :
    VMnew [Inst.Range 97 97, Inst.Match] = Except.ok (VMS.mk [0] false) ∧
    (Regex.matches [Inst.Range 97 97, Inst.Match] [97] = Except.ok true ↔
      ∃ k vm', 1 ≤ k ∧ k ≤ [97].length ∧
        runFeeds [Inst.Range 97 97, Inst.Match] (VMS.mk [0] false)
          (List.take k [97]) = Except.ok vm' ∧
        ∃ p ∈ vm'.threads, [Inst.Range 97 97, Inst.Match][p]? = some Inst.Match) :=
  ⟨rfl, c2_matches_prefix [Inst.Range 97 97, Inst.Match] (VMS.mk [0] false) rfl [97]⟩

theorem c2_empty_prefix_counterexample :
    roseCompileStr [97, 42] =
      some [Inst.Fork 3, Inst.Range 97 97, Inst.GFork 1, Inst.Match] ∧
    VMnew [Inst.Fork 3, Inst.Range 97 97, Inst.GFork 1, Inst.Match] =
      Except.ok (VMS.mk [1, 3] false) ∧
    (3 ∈ ([1, 3] : List Nat) ∧
      [Inst.Fork 3, Inst.Range 97 97, Inst.GFork 1, Inst.Match][3]? =
        some Inst.Match) ∧
    Regex.matches [Inst.Fork 3, Inst.Range 97 97, Inst.GFork 1, Inst.Match] [98] =
      Except.ok false :=
  ⟨rfl, rfl, ⟨by decide, rfl⟩, rfl⟩

/-- C8: matching is monotone in the input — an accepted string stays
accepted under any extension, by the early-accept return in
`Regex::matches`. -/
theorem c8_matches_monotone (code : List Inst) (s t : List Nat)
    (h : Regex.matches code s = Except.ok true) :
    Regex.matches code (s ++ t) = Except.ok true := by
  unfold Regex.matches at h ⊢
  cases hn : VMnew code with
  | error e =>
    simp only [hn] at h
    exact Except.noConfusion h
  | ok vm =>
    simp only [hn] at h ⊢
    exact matchLoop_mono code s vm t h

theorem c8_matches_monotone_witness :
    Regex.matches [Inst.Range 97 97, Inst.Match] [97] = Except.ok true ∧
    Regex.matches [Inst.Range 97 97, Inst.Match] ([97] ++ [98]) = Except.ok true :=
  ⟨rfl, c8_matches_monotone [Inst.Range 97 97, Inst.Match] [97] [98] rfl⟩

/-- C9: `matches("")` never returns `true`, and whenever `VM::new`
terminates it returns `false`; but for some successfully compiled
patterns (a nullable starred group) `VM::new` itself diverges, so
`matches("")` does not return at all (see the counterexample). -/
theorem c9_empty_input (code : List Inst) :
    Regex.matches code [] ≠ Except.ok true ∧
    (∀ vm₀, VMnew code = Except.ok vm₀ →
      Regex.matches code [] = Except.ok false) := by
  constructor
  · intro h
    unfold Regex.matches at h
    cases hn : VMnew code with
    | error e =>
      simp only [hn] at h
      exact Except.noConfusion h
    | ok vm =>
      simp only [hn, matchLoop] at h
      exact absurd (Except.ok.inj h) (by simp)
  · intro vm₀ hn
    unfold Regex.matches
    simp only [hn, matchLoop]

theorem c9_empty_input_witness :
    Regex.matches [Inst.Range 97 97, Inst.Match] [] = Except.ok false :=
  (c9_empty_input [Inst.Range 97 97, Inst.Match]).2 (VMS.mk [0] false) rfl

theorem c9_empty_input_counterexample :
    roseCompileStr [40, 63, 58, 124, 97, 41, 42] =
      some [Inst.Fork 5, Inst.Fork 3, Inst.Jump 4, Inst.Range 97 97,
        Inst.GFork 1, Inst.Match] ∧
    Regex.matches [Inst.Fork 5, Inst.Fork 3, Inst.Jump 4, Inst.Range 97 97,
        Inst.GFork 1, Inst.Match] [] = Except.error VmErr.fuel :=
  ⟨rfl, rfl⟩

/-- C10: the VM step invariant.  After `VM::new` and after every
successful `feed`, every thread sits on a valid `Range` or `Match`
instruction and the pcs are pairwise distinct; after every `feed` the
`matched` flag is true iff some thread sits on `Match`; consequently
`feed` never reaches its `unreachable!` arm from an invariant state,
and the `assert!` in `is_match` never fires after a `feed`. -/
theorem c10_vm_invariants (code : List Inst) :
    (∀ vm₀, VMnew code = Except.ok vm₀ →
      tlInv code vm₀.threads ∧ vm₀.matched = false) ∧
    (∀ vm c vm₁, feed code vm c = Except.ok vm₁ →
      tlInv code vm₁.threads ∧
      (vm₁.matched = true ↔ ∃ p ∈ vm₁.threads, code[p]? = some Inst.Match)) ∧
    (∀ vm c, tlInv code vm.threads →
      feed code vm c ≠ Except.error VmErr.unreachable) ∧
    (∀ vm c vm₁, feed code vm c = Except.ok vm₁ →
      is_match code vm₁ = Except.ok vm₁.matched) := by
  refine ⟨fun vm₀ h => VMnew_props code vm₀ h,
    fun vm c vm₁ h => feed_props code vm c vm₁ h, ?_, ?_⟩
  · intro vm c hinv h
    rcases feed_err code vm c VmErr.unreachable hinv.2 h with h' | h' <;>
      exact VmErr.noConfusion h'
  · intro vm c vm₁ h
    have hp := feed_props code vm c vm₁ h
    exact is_match_ok code vm₁ hp.1.2 hp.2

theorem c10_vm_invariants_witness :
    (tlInv [Inst.Range 97 97, Inst.Match] (VMS.mk [0] false).threads ∧
      (VMS.mk [0] false).matched = false) ∧
    (tlInv [Inst.Range 97 97, Inst.Match] (VMS.mk [1] true).threads ∧
      ((VMS.mk [1] true).matched = true ↔
        ∃ p ∈ (VMS.mk [1] true).threads,
          [Inst.Range 97 97, Inst.Match][p]? = some Inst.Match)) ∧
    feed [Inst.Range 97 97, Inst.Match] (VMS.mk [0] false) 97 ≠
      Except.error VmErr.unreachable ∧
    is_match [Inst.Range 97 97, Inst.Match] (VMS.mk [1] true) =
      Except.ok (VMS.mk [1] true).matched :=
  ⟨(c10_vm_invariants [Inst.Range 97 97, Inst.Match]).1 (VMS.mk [0] false) rfl,
   (c10_vm_invariants [Inst.Range 97 97, Inst.Match]).2.1
     (VMS.mk [0] false) 97 (VMS.mk [1] true) rfl,
   (c10_vm_invariants [Inst.Range 97 97, Inst.Match]).2.2.1
     (VMS.mk [0] false) 97 (by decide),
   (c10_vm_invariants [Inst.Range 97 97, Inst.Match]).2.2.2
     (VMS.mk [0] false) 97 (VMS.mk [1] true) rfl⟩


end Rose

